import Mathlib

/-!
Verification of the museum-heist path-search algorithm
(`solveHeist` and its shortest-path engine) as implemented in
`src/unnamed/part_000` and the two variants in `src/Algorithm.ts`.

Node identifiers are embedded as `Nat`, JS numbers (risks) as `Rat`.
The JS `Map` risk store is observationally a total function
`Nat → Nat → Rat` with default 0 (`getRisk`), since the string key
`` `${from},${to}` `` is injective on integer pairs.
`Infinity` distances are embedded as `Option Rat` with `none` = Infinity.
The priority queue is embedded as a list with an extract-min operation;
the comparator of the source is a total order on the reachable entries
(risk, then the comma-joined decimal string of the path), so the heap's
behaviour is deterministic and the list model is faithful.
-/

/-- A sensor from the source data: an id and its dependency ids. -/
structure Sensor where
  id : Nat
  dependencies : List Nat
deriving DecidableEq, Repr

/-- A risk entry from the source data: a directed edge with its risk. -/
structure RiskEntry where
  fromSensor : Nat
  toSensor : Nat
  risk : Rat
deriving DecidableEq, Repr

/-- The risk store, observationally: `getRisk` as a total function. -/
abbrev RiskFun := Nat → Nat → Rat

/-- `setRisk`: point update of the risk store. -/
def setRisk (m : RiskFun) (a b : Nat) (v : Rat) : RiskFun :=
  fun x y => if x = a ∧ y = b then v else m x y

/-- Risk store built from the input list with string keys: later duplicate
entries overwrite earlier ones (`riskMap.set` on an existing key).
Used by `part_000` and the first `Algorithm.ts` variant. -/
def initialRisk (risks : List RiskEntry) : RiskFun :=
  risks.foldl (fun m r => setRisk m r.fromSensor r.toSensor r.risk) (fun _ _ => 0)

/-- Risk store of the second `Algorithm.ts` variant: object-keyed map with a
linear first-match scan, so the first matching entry wins on duplicates. -/
def initialRiskFirst (risks : List RiskEntry) : RiskFun :=
  risks.foldr (fun r m => setRisk m r.fromSensor r.toSensor r.risk) (fun _ _ => 0)

/-- The adjacency structure: for each node `n`, the ids of the sensors that
declare `n` as a dependency, in source order with multiplicity, exactly as
built by the `graph.get(dep).push(sensor.id)` loops. -/
def adjOf (sensors : List Sensor) (n : Nat) : List Nat :=
  (sensors.map (fun s => (s.dependencies.filter (fun d => d = n)).map (fun _ => s.id))).flatten

/-- Root set: ids of sensors with no dependencies, sorted ascending. -/
def rootsOf (sensors : List Sensor) : List Nat :=
  List.insertionSort (· ≤ ·) ((sensors.filter (fun s => s.dependencies.isEmpty)).map (·.id))

/-- The set of sensor ids (the key set of the adjacency map). -/
def idSet (sensors : List Sensor) : Finset Nat :=
  (sensors.map (·.id)).toFinset

/-- Validity check corresponding to `graph.get(dep).push(...)`: in `part_000`
and the first `Algorithm.ts` variant, an unknown dependency id makes
`graph.get(dep)` undefined and the call throws. -/
def depsOk (sensors : List Sensor) : Bool :=
  sensors.all (fun s => s.dependencies.all (fun d => sensors.any (fun s2 => s2.id = d)))

/-- Decimal digits of `n` as ASCII code points, big-endian, with enough
fuel; helper for the comma-joined path strings produced by
`path.join(',')`.  Strings are embedded as lists of code points. -/
def decAux : Nat → Nat → List Nat
  | 0, _ => []
  | _, 0 => []
  | fuel+1, n+1 => decAux fuel ((n+1) / 10) ++ [48 + (n+1) % 10]

/-- Decimal string of a natural number (as code points), as produced by JS
`Number.toString`. -/
def decChars (n : Nat) : List Nat :=
  if n = 0 then [48] else decAux (n+1) n

/-- The code point of the comma separator. -/
def commaCode : Nat := 44

/-- Decimal valuation of a digit string; left inverse of `decChars`, used to
prove that decimal strings are injective. -/
def valOf (l : List Nat) : Nat := l.foldl (fun a c => 10 * a + (c - 48)) 0

/-- The string `path.join(',')` of a node list, as a code-point list. -/
def pathKey : List Nat → List Nat
  | [] => []
  | [a] => decChars a
  | a :: b :: t => decChars a ++ commaCode :: pathKey (b :: t)

/-- Lexicographic strict order on code-point lists: the order used by
`localeCompare` on these strings (digits and commas collate by code point,
and a proper prefix is smaller). -/
def lexLtB : List Nat → List Nat → Bool
  | [], [] => false
  | [], _ :: _ => true
  | _ :: _, [] => false
  | a :: as, b :: bs => if a < b then true else if b < a then false else lexLtB as bs

/-- A frontier entry of the priority queue: accumulated risk, current node,
and the exact path taken. -/
structure QEntry where
  risk : Rat
  node : Nat
  path : List Nat
deriving DecidableEq, Repr

/-- The priority-queue comparator: risk ascending, then the comma-joined
path strings lexicographically. -/
def qLtB (a b : QEntry) : Bool :=
  if a.risk < b.risk then true
  else if b.risk < a.risk then false
  else lexLtB (pathKey a.path) (pathKey b.path)

/-- Extract a minimal entry (the comparator is total on distinct reachable
entries, so which minimal occurrence is removed is irrelevant). -/
def extractMin : List QEntry → Option (QEntry × List QEntry)
  | [] => none
  | e :: es =>
    match extractMin es with
    | none => some (e, [])
    | some (m, rest) => if qLtB m e then some (m, e :: rest) else some (e, es)

/-- State of one Dijkstra run: best-known distances (`none` = Infinity),
the finalized set, and the frontier. -/
structure DState where
  dist : Nat → Option Rat
  visited : Finset Nat
  pq : List QEntry

/-- Point update of the distance map. -/
def updDist (d : Nat → Option Rat) (n : Nat) (v : Rat) : Nat → Option Rat :=
  fun x => if x = n then some v else d x

/-- One relaxation step for neighbour `n` of the just-finalized node, with
accumulated risk `du` and path `pu`: mirrors the body of the `for (const n
of neighbors)` loop (skip finalized, strict improvement updates and pushes,
an exact tie also pushes). -/
def relaxOne (w : RiskFun) (u : Nat) (du : Rat) (pu : List Nat)
    (st : DState) (n : Nat) : DState :=
  if n ∈ st.visited then st
  else
    let newRisk := w u n + du
    match st.dist n with
    | none =>
        ⟨updDist st.dist n newRisk, st.visited,
          st.pq ++ [⟨newRisk, n, pu ++ [n]⟩]⟩
    | some dn =>
        if newRisk < dn then
          ⟨updDist st.dist n newRisk, st.visited,
            st.pq ++ [⟨newRisk, n, pu ++ [n]⟩]⟩
        else if newRisk = dn then
          ⟨st.dist, st.visited, st.pq ++ [⟨newRisk, n, pu ++ [n]⟩]⟩
        else st

/-- Finalize the node of entry `e` and relax all its outgoing neighbours. -/
def visitNode (adj : Nat → List Nat) (w : RiskFun) (e : QEntry)
    (st : DState) : DState :=
  (adj e.node).foldl (relaxOne w e.node e.risk e.path)
    ⟨st.dist, insert e.node st.visited, st.pq⟩

/-- The main Dijkstra loop (`while (!pq.isEmpty())`), with fuel.  The fuel is
a modelling device: `fuelFor` below always suffices, which is proved as part
of the correctness lemmas. -/
def dloop (adj : Nat → List Nat) (w : RiskFun) (target : Nat) :
    Nat → DState → Option (Rat × List Nat)
  | 0, _ => none
  | fuel+1, st =>
    match extractMin st.pq with
    | none => none
    | some (e, rest) =>
      if e.node ∈ st.visited then
        dloop adj w target fuel ⟨st.dist, st.visited, rest⟩
      else if e.node = target then some (e.risk, e.path)
      else dloop adj w target fuel
        (visitNode adj w e ⟨st.dist, st.visited, rest⟩)

/-- Total out-degree mass of the adjacency structure over a node set. -/
def degSum (adj : Nat → List Nat) (V : Finset Nat) : Nat :=
  V.sum (fun x => (adj x).length)

/-- Sufficient fuel for a run seeded with `k` entries. -/
def fuelFor (adj : Nat → List Nat) (V : Finset Nat) (k : Nat) : Nat :=
  k + degSum adj V + 1

/-- Initial state of the multi-source variant (`multiRootDijkstra`): one
entry per root and distance 0 for every root. -/
def initMulti (roots : List Nat) : DState :=
  ⟨roots.foldl (fun d r => updDist d r 0) (fun _ => none), ∅,
    roots.map (fun r => ⟨0, r, [r]⟩)⟩

/-- Initial state of `dijkstra` in the first `Algorithm.ts` variant: a single
seed entry; the start distance is left at Infinity (the source never sets
it, and no edge enters a root). -/
def initSingle (start : Nat) : DState :=
  ⟨fun _ => none, ∅, [⟨0, start, [start]⟩]⟩

/-- Initial state of `dijkstra` in the second `Algorithm.ts` variant, which
does set `distances.set(start, 0)`. -/
def initSingle2 (start : Nat) : DState :=
  ⟨updDist (fun _ => none) start 0, ∅, [⟨0, start, [start]⟩]⟩

/-- `multiRootDijkstra` of `part_000`: search from all roots at once. -/
def multiRootDijkstra (sensors : List Sensor) (w : RiskFun) (target : Nat) :
    Option (Rat × List Nat) :=
  let adj := adjOf sensors
  let roots := rootsOf sensors
  dloop adj w target (fuelFor adj (idSet sensors) roots.length)
    (initMulti roots)

/-- `dijkstra(start, target)` of the first `Algorithm.ts` variant. -/
def dijkstra (sensors : List Sensor) (w : RiskFun) (start target : Nat) :
    Option (Rat × List Nat) :=
  let adj := adjOf sensors
  dloop adj w target (fuelFor adj (idSet sensors) 1) (initSingle start)

/-- `dijkstra(start, target)` of the second `Algorithm.ts` variant. -/
def dijkstra2 (sensors : List Sensor) (w : RiskFun) (start target : Nat) :
    Option (Rat × List Nat) :=
  let adj := adjOf sensors
  dloop adj w target (fuelFor adj (idSet sensors) 1) (initSingle2 start)

/-- `findBestPathToTarget` of the `Algorithm.ts` variants: run the per-root
search from every root in ascending order, keep the result with the
strictly smaller risk (the `root < bestRoot` disjunct can only demote
later, larger roots, so the first root achieving the minimum wins).
The result records the chosen root, risk and path. -/
def findBestPathToTarget (dij : Nat → Nat → Option (Rat × List Nat))
    (roots : List Nat) (target : Nat) : Option (Nat × Rat × List Nat) :=
  roots.foldl
    (fun acc r =>
      match dij r target with
      | none => acc
      | some (d, p) =>
        match acc with
        | none => some (r, d, p)
        | some (br, bd, _) =>
          if d < bd ∨ (d = bd ∧ r < br) then some (r, d, p) else acc)
    none

/-- One pass of the target-selection scan (`for (const target of
remainingTargets)`): keep the pending target whose engine answer has
minimal risk, ties broken by the smaller target id. -/
def selectBest (engine : Nat → Option (Rat × List Nat))
    (pending : List Nat) : Option (Nat × Rat × List Nat) :=
  pending.foldl
    (fun acc t =>
      match engine t with
      | none => acc
      | some (d, p) =>
        match acc with
        | none => some (t, d, p)
        | some (bt, bd, _) =>
          if d < bd ∨ (d = bd ∧ t < bt) then some (t, d, p) else acc)
    none

/-- The accumulator step shared by the two best-candidate scans
(`findBestPathToTarget` over roots, and the target-selection scan): keep
the candidate with smaller risk, ties broken by the smaller identifier. -/
def scanStep (g : Nat → Option (Rat × List Nat))
    (acc : Option (Nat × Rat × List Nat)) (r : Nat) :
    Option (Nat × Rat × List Nat) :=
  match g r with
  | none => acc
  | some (d, p) =>
    match acc with
    | none => some (r, d, p)
    | some (br, bd, _) =>
      if d < bd ∨ (d = bd ∧ r < br) then some (r, d, p) else acc

/-- Insertion-ordered deduplication: the iteration order of
`new Set(targetSensors)`. -/
def dedupFirst : List Nat → List Nat
  | [] => []
  | a :: t => a :: (dedupFirst t).filter (fun x => x ≠ a)

/-- Consecutive pairs of a path (the edges it traverses). -/
def consecPairs : List Nat → List (Nat × Nat)
  | [] => []
  | [_] => []
  | a :: b :: t => (a, b) :: consecPairs (b :: t)

/-- Zero out the risks along a recorded path (`setRisk(path[i], path[i+1],
0)` for every consecutive pair). -/
def zeroPath (rm : RiskFun) (p : List Nat) : RiskFun :=
  (consecPairs p).foldl (fun m ab => setRisk m ab.1 ab.2 0) rm

/-- The greedy outer loop: repeatedly select the globally cheapest pending
target, record `(target, risk, path)`, remove the target and zero the
path's edges.  Fuel equal to the pending-list length always suffices since
each iteration removes the chosen target. -/
def solveLoop (engine : RiskFun → Nat → Option (Rat × List Nat)) :
    Nat → List Nat → RiskFun → List (Nat × Rat × List Nat)
  | 0, _, _ => []
  | fuel+1, pending, rm =>
    if pending.isEmpty then []
    else
      match selectBest (engine rm) pending with
      | none => []
      | some (t, d, p) =>
        (t, d, p) :: solveLoop engine fuel
          (pending.filter (fun x => x ≠ t)) (zeroPath rm p)

/-- The engine of `part_000`'s outer loop. -/
def heistEngine (sensors : List Sensor) : RiskFun → Nat → Option (Rat × List Nat) :=
  fun rm t => multiRootDijkstra sensors rm t

/-- The engine of the first `Algorithm.ts` variant's outer loop. -/
def heistEngine1 (sensors : List Sensor) : RiskFun → Nat → Option (Rat × List Nat) :=
  fun rm t =>
    (findBestPathToTarget (fun r tg => dijkstra sensors rm r tg)
      (rootsOf sensors) t).map (fun x => x.2)

/-- The engine of the second `Algorithm.ts` variant's outer loop. -/
def heistEngine2 (sensors : List Sensor) : RiskFun → Nat → Option (Rat × List Nat) :=
  fun rm t =>
    (findBestPathToTarget (fun r tg => dijkstra2 sensors rm r tg)
      (rootsOf sensors) t).map (fun x => x.2)

/-- The run of `solveHeist` in `part_000` with the recorded risks kept:
`none` models the `TypeError` thrown by `graph.get(dep).push(...)` when a
dependency references an unknown node id (fatal, before any search). -/
def solveHeistTrace (sensors : List Sensor) (risks : List RiskEntry)
    (targetSensors : List Nat) : Option (List (Nat × Rat × List Nat)) :=
  if depsOk sensors then
    some (solveLoop (heistEngine sensors)
      (dedupFirst targetSensors).length (dedupFirst targetSensors)
      (initialRisk risks))
  else none

/-- `solveHeist` of `part_000` (multi-source engine). -/
def solveHeist (sensors : List Sensor) (risks : List RiskEntry)
    (targetSensors : List Nat) : Option (List (List Nat)) :=
  (solveHeistTrace sensors risks targetSensors).map
    (List.map (fun x => x.2.2))

/-- The run of the first `Algorithm.ts` variant (per-root engine), with
recorded risks kept. -/
def solveHeistTrace1 (sensors : List Sensor) (risks : List RiskEntry)
    (targetSensors : List Nat) : Option (List (Nat × Rat × List Nat)) :=
  if depsOk sensors then
    some (solveLoop (heistEngine1 sensors)
      (dedupFirst targetSensors).length (dedupFirst targetSensors)
      (initialRisk risks))
  else none

/-- `solveHeist` of the first `Algorithm.ts` variant. -/
def solveHeist1 (sensors : List Sensor) (risks : List RiskEntry)
    (targetSensors : List Nat) : Option (List (List Nat)) :=
  (solveHeistTrace1 sensors risks targetSensors).map
    (List.map (fun x => x.2.2))

/-- `solveHeist` of the second `Algorithm.ts` variant: `graph.get(dep)?.push`
silently skips dependencies on unknown ids (no error), the risk store is
first-match on duplicates, and `distances.set(start, 0)` is performed.
Skipped pushes only ever remove adjacency entries of unknown keys, which no
search can reach, so `adjOf` is observationally unchanged. -/
def solveHeist2 (sensors : List Sensor) (risks : List RiskEntry)
    (targetSensors : List Nat) : List (List Nat) :=
  (solveLoop (heistEngine2 sensors)
    (dedupFirst targetSensors).length (dedupFirst targetSensors)
    (initialRiskFirst risks)).map (fun x => x.2.2)

/-- The edge relation of the adjacency structure. -/
def IsEdge (adj : Nat → List Nat) (a b : Nat) : Prop := b ∈ adj a

instance (adj : Nat → List Nat) (a b : Nat) : Decidable (IsEdge adj a b) :=
  inferInstanceAs (Decidable (b ∈ adj a))

/-- The head of the list is one of the given seed nodes. -/
def headIn (seeds : List Nat) : List Nat → Prop
  | [] => False
  | a :: _ => a ∈ seeds

instance (seeds : List Nat) : (p : List Nat) → Decidable (headIn seeds p)
  | [] => isFalse (fun h => h)
  | a :: _ => inferInstanceAs (Decidable (a ∈ seeds))

/-- A path of the data model: starts at a seed and follows edges of the
adjacency structure. -/
def GPath (adj : Nat → List Nat) (seeds : List Nat) (p : List Nat) : Prop :=
  List.Chain' (IsEdge adj) p ∧ headIn seeds p

instance (adj : Nat → List Nat) (seeds : List Nat) (p : List Nat) :
    Decidable (GPath adj seeds p) :=
  inferInstanceAs (Decidable (_ ∧ _))

/-- Executable edge-chain check, used to evaluate `GPath` on concrete
inputs. -/
def chainB (adj : Nat → List Nat) : List Nat → Bool
  | [] => true
  | [_] => true
  | a :: b :: t => decide (b ∈ adj a) && chainB adj (b :: t)

/-- Executable head check, used to evaluate `GPath` on concrete inputs. -/
def headInB (seeds : List Nat) : List Nat → Bool
  | [] => false
  | a :: _ => decide (a ∈ seeds)

/-- Executable form of `GPath`. -/
def gpathB (adj : Nat → List Nat) (seeds : List Nat) (p : List Nat) : Bool :=
  chainB adj p && headInB seeds p

/-- Accumulated risk of a path: sum of the risks of its consecutive pairs. -/
def wPath (w : RiskFun) : List Nat → Rat
  | [] => 0
  | [_] => 0
  | a :: b :: t => w a b + wPath w (b :: t)

/-- The target is reachable: some path from a seed ends at it. -/
def CanReach (adj : Nat → List Nat) (seeds : List Nat) (t : Nat) : Prop :=
  ∃ q, GPath adj seeds q ∧ q.getLast? = some t

/-- The non-strict frontier order on (risk, path) pairs: risk ascending,
ties by the comma-joined path strings. -/
def entryLe (d : Rat) (p : List Nat) (d2 : Rat) (p2 : List Nat) : Prop :=
  d < d2 ∨ (d = d2 ∧ (lexLtB (pathKey p) (pathKey p2) = true ∨ p = p2))

/-- Termination potential of the Dijkstra loop: every iteration strictly
decreases it. -/
def phiD (adj : Nat → List Nat) (V : Finset Nat) (st : DState) : Nat :=
  st.pq.length + ((V \ st.visited).sum fun x => (adj x).length) + 1

/-- The loop invariant of the Dijkstra search.  `popped` asserts global
optimality (in the combined order) of every finalized node together with
frontier coverage of its outgoing relaxations; `distReal` ties the
best-known distance of a non-finalized node to an actual frontier entry;
`seedsPq` keeps the initial seed entries until their node is finalized. -/
structure DInv (adj : Nat → List Nat) (w : RiskFun) (seeds : List Nat)
    (V : Finset Nat) (st : DState) : Prop where
  pqV : ∀ e ∈ st.pq, e.node ∈ V
  pqPath : ∀ e ∈ st.pq, GPath adj seeds e.path ∧
    e.path.getLast? = some e.node ∧ wPath w e.path = e.risk ∧
    e.path.Nodup ∧ ∀ x ∈ e.path.dropLast, x ∈ st.visited
  popped : ∀ v ∈ st.visited, ∃ dv pv, GPath adj seeds pv ∧
    pv.getLast? = some v ∧ wPath w pv = dv ∧ pv.Nodup ∧
    (∀ q, GPath adj seeds q → q.Nodup → q.getLast? = some v →
      entryLe dv pv (wPath w q) q) ∧
    (∀ n ∈ adj v, n ∉ st.visited → ∃ e ∈ st.pq, e.node = n ∧
      entryLe e.risk e.path (dv + w v n) (pv ++ [n]))
  distReal : ∀ x, x ∉ st.visited → ∀ dx, st.dist x = some dx →
    ∃ e ∈ st.pq, e.node = x ∧ e.risk = dx
  seedsPq : ∀ r ∈ seeds, r ∉ st.visited → (⟨0, r, [r]⟩ : QEntry) ∈ st.pq

/-- Modelled from the spec: the comparison C2's claim asserts, namely
position-by-position numeric comparison of the node identifiers themselves,
with a proper prefix smaller.  (The source instead compares the
comma-joined decimal strings.) -/
def numLexLtB : List Nat → List Nat → Bool
  | [], [] => false
  | [], _ :: _ => true
  | _ :: _, [] => false
  | a :: as, b :: bs => if a < b then true else if b < a then false else numLexLtB as bs

/-- Run-level selection invariant: every recorded trace entry is, at its
iteration's risk store, a pending target returned by the engine with
minimal risk, ties broken by the smaller target identifier. -/
def traceMinB (engine : RiskFun → Nat → Option (Rat × List Nat)) :
    List (Nat × Rat × List Nat) → List Nat → RiskFun → Bool
  | [], _, _ => true
  | (t, d, p) :: rest, pending, rm =>
    decide (t ∈ pending) &&
    (match engine rm t with
      | some (d2, p2) => decide (d2 = d ∧ p2 = p)
      | none => false) &&
    pending.all (fun t2 =>
      match engine rm t2 with
      | none => true
      | some (d2, _) => decide (d < d2 ∨ (d = d2 ∧ t ≤ t2))) &&
    traceMinB engine rest (pending.filter (fun x => x ≠ t)) (zeroPath rm p)

/-! ### Theory of the lexicographic string order used by the comparator -/

theorem lexLtB_nil_right : ∀ l : List Nat, lexLtB l [] = false
  | [] => rfl
  | _ :: _ => rfl

theorem lexLtB_irrefl : ∀ l : List Nat, lexLtB l l = false
  | [] => rfl
  | a :: t => by simp [lexLtB, lt_irrefl, lexLtB_irrefl t]

theorem lexLtB_asymm : ∀ a b : List Nat, lexLtB a b = true → lexLtB b a = false
  | [], [] => by simp [lexLtB]
  | [], _ :: _ => fun _ => rfl
  | _ :: _, [] => by simp [lexLtB]
  | a :: as, b :: bs => by
    by_cases hab : a < b
    · intro _
      simp [lexLtB, lt_asymm hab, hab]
    · by_cases hba : b < a
      · simp [lexLtB, hab, hba]
      · intro h
        have h2 := lexLtB_asymm as bs (by simpa [lexLtB, hab, hba] using h)
        simp [lexLtB, hab, hba, h2]

theorem lexLtB_trans : ∀ a b c : List Nat,
    lexLtB a b = true → lexLtB b c = true → lexLtB a c = true
  | a, b, [] => by
    intro _ h; rw [lexLtB_nil_right b] at h; exact absurd h (by simp)
  | [], b, _ :: _ => by intro _ _; rfl
  | a :: as, [], c :: cs => by intro h _; simp [lexLtB] at h
  | a :: as, b :: bs, c :: cs => by
    intro h1 h2
    by_cases hab : a < b
    · by_cases hbc : b < c
      · simp [lexLtB, lt_trans hab hbc]
      · by_cases hcb : c < b
        · simp [lexLtB, hbc, hcb] at h2
        · have hbceq : b = c := le_antisymm (not_lt.mp hcb) (not_lt.mp hbc)
          subst hbceq; simp [lexLtB, hab]
    · by_cases hba : b < a
      · simp [lexLtB, hab, hba] at h1
      · have habeq : a = b := le_antisymm (not_lt.mp hba) (not_lt.mp hab)
        subst habeq
        have h1' : lexLtB as bs = true := by
          simpa [lexLtB, lt_irrefl] using h1
        by_cases hac : a < c
        · simp [lexLtB, hac]
        · by_cases hca : c < a
          · simp [lexLtB, hac, hca] at h2
          · have haceq : a = c := le_antisymm (not_lt.mp hca) (not_lt.mp hac)
            subst haceq
            have h2' : lexLtB bs cs = true := by
              simpa [lexLtB, lt_irrefl] using h2
            simpa [lexLtB, lt_irrefl] using lexLtB_trans as bs cs h1' h2'

theorem lexLtB_total : ∀ a b : List Nat,
    lexLtB a b = false → lexLtB b a = false → a = b
  | [], [] => by intro _ _; rfl
  | [], _ :: _ => by simp [lexLtB]
  | _ :: _, [] => by intro _ h; simp [lexLtB] at h
  | a :: as, b :: bs => by
    intro h1 h2
    by_cases hab : a < b
    · simp [lexLtB, hab] at h1
    · by_cases hba : b < a
      · simp [lexLtB, hba] at h2
      · have habeq : a = b := le_antisymm (not_lt.mp hba) (not_lt.mp hab)
        subst habeq
        have h1' : lexLtB as bs = false := by
          simpa [lexLtB, lt_irrefl] using h1
        have h2' : lexLtB bs as = false := by
          simpa [lexLtB, lt_irrefl] using h2
        rw [lexLtB_total as bs h1' h2']

theorem lexLtB_append_self : ∀ a t : List Nat, t ≠ [] → lexLtB a (a ++ t) = true
  | [], [] => by intro h; exact absurd rfl h
  | [], _ :: _ => fun _ => rfl
  | x :: a, t => fun h => by
    simpa [lexLtB, lt_irrefl] using lexLtB_append_self a t h

theorem lexLtB_append_suffix : ∀ A B v : List Nat,
    lexLtB A B = true →
    (∀ c ∈ B, commaCode ≤ c) →
    (∀ u, B ≠ A ++ commaCode :: u) →
    lexLtB (A ++ commaCode :: v) (B ++ commaCode :: v) = true
  | [], [], v => by simp [lexLtB]
  | [], b :: B, v => by
    intro _ hge hne
    have hb := hge b (by simp)
    rcases lt_or_eq_of_le hb with h | h
    · simp [lexLtB, h]
    · exact absurd (by rw [← h]; rfl) (hne B)
  | a :: A, [], v => by intro h _ _; simp [lexLtB] at h
  | a :: A, b :: B, v => by
    intro h hge hne
    by_cases hab : a < b
    · simp [lexLtB, hab]
    · by_cases hba : b < a
      · simp [lexLtB, hab, hba] at h
      · have habeq : a = b := le_antisymm (not_lt.mp hba) (not_lt.mp hab)
        subst habeq
        have h' : lexLtB A B = true := by simpa [lexLtB, lt_irrefl] using h
        have hge' : ∀ c ∈ B, commaCode ≤ c := fun c hc => hge c (by simp [hc])
        have hne' : ∀ u, B ≠ A ++ commaCode :: u := by
          intro u hu
          exact hne u (by rw [List.cons_append, hu])
        have := lexLtB_append_suffix A B v h' hge' hne'
        simpa [lexLtB, lt_irrefl] using this

/-! ### Decimal strings: digit range and injectivity -/

theorem decAux_digits : ∀ fuel n, ∀ c ∈ decAux fuel n, 48 ≤ c ∧ c ≤ 57
  | 0, _ => by simp [decAux]
  | fuel+1, 0 => by simp [decAux]
  | fuel+1, n+1 => by
    intro c hc
    rw [decAux] at hc
    rcases List.mem_append.mp hc with h | h
    · exact decAux_digits fuel ((n+1)/10) c h
    · have hc' : c = 48 + (n+1) % 10 := by simpa using h
      have hlt : (n+1) % 10 < 10 := Nat.mod_lt _ (by norm_num)
      omega

theorem decChars_digits : ∀ n, ∀ c ∈ decChars n, 48 ≤ c ∧ c ≤ 57 := by
  intro n c hc
  by_cases h : n = 0
  · subst h; simp [decChars] at hc; omega
  · rw [decChars, if_neg h] at hc
    exact decAux_digits _ _ c hc

theorem decAux_foldl : ∀ fuel n acc, n ≤ fuel →
    (decAux fuel n).foldl (fun a c => 10 * a + (c - 48)) acc =
      acc * 10 ^ (decAux fuel n).length + n
  | 0, n, acc => by
    intro h
    have : n = 0 := Nat.le_zero.mp h
    subst this; simp [decAux]
  | fuel+1, 0, acc => by intro _; simp [decAux]
  | fuel+1, n+1, acc => by
    intro h
    rw [decAux, List.foldl_append, List.length_append]
    have hdiv : (n+1) / 10 ≤ fuel := by
      have h1 : (n+1) / 10 < n + 1 := Nat.div_lt_self (Nat.succ_pos n) (by norm_num)
      omega
    rw [decAux_foldl fuel ((n+1)/10) acc hdiv]
    have hmod : 48 + (n+1) % 10 - 48 = (n+1) % 10 := by omega
    simp only [List.foldl_cons, List.foldl_nil, List.length_cons, List.length_nil, hmod]
    have hdm := Nat.div_add_mod (n+1) 10
    ring_nf
    omega

theorem valOf_decChars (n : Nat) : valOf (decChars n) = n := by
  by_cases h : n = 0
  · subst h; simp [decChars, valOf]
  · rw [decChars, if_neg h, valOf, decAux_foldl (n+1) n _ (by omega)]
    simp

theorem decChars_inj {m n : Nat} (h : decChars m = decChars n) : m = n := by
  have := valOf_decChars m
  rw [h, valOf_decChars n] at this
  omega

theorem decAux_ne_nil : ∀ fuel n, n ≠ 0 → n ≤ fuel → decAux fuel n ≠ []
  | 0, n => by intro h hle; omega
  | fuel+1, 0 => by intro h _; exact absurd rfl h
  | fuel+1, n+1 => by
    intro _ _
    rw [decAux]
    exact fun hx => by simpa using congrArg List.length hx

theorem decChars_ne_nil (n : Nat) : decChars n ≠ [] := by
  by_cases h : n = 0
  · subst h; simp [decChars]
  · rw [decChars, if_neg h]
    exact decAux_ne_nil (n+1) n h (by omega)

/-! ### Theory of `pathKey` -/

theorem pathKey_ne_nil : ∀ p : List Nat, p ≠ [] → pathKey p ≠ []
  | [], h => absurd rfl h
  | [a], _ => by simpa [pathKey] using decChars_ne_nil a
  | a :: b :: t, _ => by
    rw [pathKey]
    intro hx
    exact decChars_ne_nil a (List.append_eq_nil.mp hx).1

theorem pathKey_append : ∀ p q : List Nat, p ≠ [] → q ≠ [] →
    pathKey (p ++ q) = pathKey p ++ commaCode :: pathKey q
  | [], _, hp, _ => absurd rfl hp
  | [a], [], _, hq => absurd rfl hq
  | [a], b :: q, _, _ => by
    cases q with
    | nil => simp [pathKey]
    | cons c q' => simp [pathKey]
  | a :: a2 :: p, q, _, hq => by
    have hrec : pathKey (a2 :: (p ++ q)) =
        pathKey (a2 :: p) ++ commaCode :: pathKey q :=
      pathKey_append (a2 :: p) q (by simp) hq
    calc pathKey ((a :: a2 :: p) ++ q)
        = decChars a ++ commaCode :: pathKey (a2 :: (p ++ q)) := rfl
      _ = decChars a ++ commaCode ::
            (pathKey (a2 :: p) ++ commaCode :: pathKey q) := by rw [hrec]
      _ = (decChars a ++ commaCode :: pathKey (a2 :: p)) ++
            commaCode :: pathKey q := by simp
      _ = pathKey (a :: a2 :: p) ++ commaCode :: pathKey q := rfl

theorem pathKey_chars : ∀ p : List Nat, ∀ c ∈ pathKey p, commaCode ≤ c
  | [] => by simp [pathKey]
  | [a] => by
    intro c hc
    have := decChars_digits a c (by simpa [pathKey] using hc)
    simp [commaCode]; omega
  | a :: b :: t => by
    intro c hc
    rw [pathKey] at hc
    rcases List.mem_append.mp hc with h | h
    · have := decChars_digits a c h
      simp [commaCode]; omega
    · rcases List.mem_cons.mp h with h | h
      · omega
      · exact pathKey_chars (b :: t) c h

theorem getLast?_mem_list {l : List Nat} {a : Nat} (h : l.getLast? = some a) :
    a ∈ l := by
  obtain ⟨hne, heq⟩ :=
    List.mem_getLast?_eq_getLast (show a ∈ l.getLast? from h)
  exact heq ▸ List.getLast_mem hne

theorem decSplit : ∀ D1 D2 X1 X2 : List Nat,
    (∀ c ∈ D1, 48 ≤ c) → (∀ c ∈ D2, 48 ≤ c) → D1 ≠ [] → D2 ≠ [] →
    (X1 = [] ∨ ∃ t, X1 = commaCode :: t) →
    (X2 = [] ∨ ∃ t, X2 = commaCode :: t) →
    D1 ++ X1 = D2 ++ X2 → D1 = D2 ∧ X1 = X2
  | [], _, _, _ => by intro _ _ h _ _ _ _; exact absurd rfl h
  | _ :: _, [], _, _ => by intro _ _ _ h _ _ _; exact absurd rfl h
  | [c], d :: D2, X1, X2 => by
    intro _ hD2 _ _ hX1 _ heq
    cases D2 with
    | nil =>
      simp only [List.cons_append, List.nil_append, List.cons.injEq] at heq
      exact ⟨by rw [heq.1], heq.2⟩
    | cons e D2' =>
      simp only [List.cons_append, List.nil_append, List.cons.injEq] at heq
      rcases hX1 with h | ⟨t, ht⟩
      · rw [h] at heq; exact absurd heq.2.symm (by simp)
      · rw [ht] at heq
        have he : commaCode = e := (List.cons.injEq _ _ _ _).mp heq.2 |>.1
        have := hD2 e (by simp)
        simp [commaCode] at he; omega
  | c :: c2 :: D1, d :: D2, X1, X2 => by
    intro hD1 hD2 _ _ hX1 hX2 heq
    cases D2 with
    | nil =>
      simp only [List.cons_append, List.nil_append, List.cons.injEq] at heq
      rcases hX2 with h | ⟨t, ht⟩
      · rw [h] at heq; exact absurd heq.2 (by simp)
      · rw [ht] at heq
        have hc2 : c2 = commaCode := (List.cons.injEq _ _ _ _).mp heq.2 |>.1
        have := hD1 c2 (by simp)
        simp [commaCode] at hc2; omega
    | cons e D2' =>
      simp only [List.cons_append, List.cons.injEq] at heq
      have hlist : (c2 :: D1) ++ X1 = (e :: D2') ++ X2 := by
        rw [List.cons_append, List.cons_append, heq.2.1, heq.2.2]
      have hrec := decSplit (c2 :: D1) (e :: D2') X1 X2
        (fun x hx => hD1 x (by simp at hx ⊢; tauto))
        (fun x hx => hD2 x (by simp at hx ⊢; tauto))
        (by simp) (by simp) hX1 hX2 hlist
      refine ⟨?_, hrec.2⟩
      rw [heq.1, hrec.1]

theorem parseExtend : ∀ p q u : List Nat, p ≠ [] → q ≠ [] →
    pathKey q = pathKey p ++ commaCode :: u → ∃ r, r ≠ [] ∧ q = p ++ r
  | [], _, _ => by intro h _ _; exact absurd rfl h
  | _, [], _ => by intro _ h _; exact absurd rfl h
  | [a], b :: q', u => by
    intro _ _ heq
    cases q' with
    | nil =>
      have heq' : decChars b ++ [] = decChars a ++ commaCode :: u := by
        simpa [pathKey] using heq
      have := decSplit (decChars b) (decChars a) [] (commaCode :: u)
        (fun c hc => (decChars_digits b c hc).1)
        (fun c hc => (decChars_digits a c hc).1)
        (decChars_ne_nil b) (decChars_ne_nil a)
        (Or.inl rfl) (Or.inr ⟨u, rfl⟩) heq'
      exact absurd this.2.symm (by simp)
    | cons c q'' =>
      have heq' : decChars b ++ commaCode :: pathKey (c :: q'') =
          decChars a ++ commaCode :: u := by
        simpa [pathKey] using heq
      have hsp := decSplit (decChars b) (decChars a)
        (commaCode :: pathKey (c :: q'')) (commaCode :: u)
        (fun x hx => (decChars_digits b x hx).1)
        (fun x hx => (decChars_digits a x hx).1)
        (decChars_ne_nil b) (decChars_ne_nil a)
        (Or.inr ⟨_, rfl⟩) (Or.inr ⟨u, rfl⟩) heq'
      have hab : b = a := decChars_inj hsp.1
      exact ⟨c :: q'', by simp, by rw [hab]; rfl⟩
  | a :: a2 :: p', b :: q', u => by
    intro _ _ heq
    cases q' with
    | nil =>
      have heq' : decChars b ++ [] =
          decChars a ++ commaCode :: (pathKey (a2 :: p') ++ commaCode :: u) := by
        simpa [pathKey] using heq
      have := decSplit (decChars b) (decChars a) []
        (commaCode :: (pathKey (a2 :: p') ++ commaCode :: u))
        (fun c hc => (decChars_digits b c hc).1)
        (fun c hc => (decChars_digits a c hc).1)
        (decChars_ne_nil b) (decChars_ne_nil a)
        (Or.inl rfl) (Or.inr ⟨_, rfl⟩) heq'
      exact absurd this.2.symm (by simp)
    | cons c q'' =>
      have heq' : decChars b ++ commaCode :: pathKey (c :: q'') =
          decChars a ++ commaCode :: (pathKey (a2 :: p') ++ commaCode :: u) := by
        simpa [pathKey] using heq
      have hsp := decSplit (decChars b) (decChars a)
        (commaCode :: pathKey (c :: q'')) _
        (fun x hx => (decChars_digits b x hx).1)
        (fun x hx => (decChars_digits a x hx).1)
        (decChars_ne_nil b) (decChars_ne_nil a)
        (Or.inr ⟨_, rfl⟩) (Or.inr ⟨_, rfl⟩) heq'
      have hab : b = a := decChars_inj hsp.1
      have htail : pathKey (c :: q'') = pathKey (a2 :: p') ++ commaCode :: u := by
        have := hsp.2
        simpa using this
      obtain ⟨r, hr, hqr⟩ := parseExtend (a2 :: p') (c :: q'') u (by simp) (by simp) htail
      exact ⟨r, hr, by rw [hab, hqr]; rfl⟩

theorem pathKey_inj : ∀ p q : List Nat, pathKey p = pathKey q → p = q
  | [], [] => fun _ => rfl
  | [], b :: q' => by
    intro h; exact absurd h.symm (pathKey_ne_nil (b :: q') (by simp))
  | a :: p', [] => by
    intro h; exact absurd h (pathKey_ne_nil (a :: p') (by simp))
  | [a], [b] => by
    intro h
    rw [show pathKey [a] = decChars a from rfl,
      show pathKey [b] = decChars b from rfl] at h
    rw [decChars_inj h]
  | [a], b :: c :: q' => by
    intro h
    have heq' : decChars a ++ [] = decChars b ++ commaCode :: pathKey (c :: q') := by
      simpa [pathKey] using h
    have := decSplit (decChars a) (decChars b) [] _
      (fun x hx => (decChars_digits a x hx).1)
      (fun x hx => (decChars_digits b x hx).1)
      (decChars_ne_nil a) (decChars_ne_nil b)
      (Or.inl rfl) (Or.inr ⟨_, rfl⟩) heq'
    exact absurd this.2.symm (by simp)
  | a :: a2 :: p', [b] => by
    intro h
    have heq' : decChars a ++ commaCode :: pathKey (a2 :: p') = decChars b ++ [] := by
      simpa [pathKey] using h
    have := decSplit (decChars a) (decChars b) _ []
      (fun x hx => (decChars_digits a x hx).1)
      (fun x hx => (decChars_digits b x hx).1)
      (decChars_ne_nil a) (decChars_ne_nil b)
      (Or.inr ⟨_, rfl⟩) (Or.inl rfl) heq'
    exact absurd this.2 (by simp)
  | a :: a2 :: p', b :: b2 :: q' => by
    intro h
    have heq' : decChars a ++ commaCode :: pathKey (a2 :: p') =
        decChars b ++ commaCode :: pathKey (b2 :: q') := by
      simpa [pathKey] using h
    have hsp := decSplit (decChars a) (decChars b) _ _
      (fun x hx => (decChars_digits a x hx).1)
      (fun x hx => (decChars_digits b x hx).1)
      (decChars_ne_nil a) (decChars_ne_nil b)
      (Or.inr ⟨_, rfl⟩) (Or.inr ⟨_, rfl⟩) heq'
    have hab : a = b := decChars_inj hsp.1
    have htail : pathKey (a2 :: p') = pathKey (b2 :: q') := by
      have := hsp.2; simpa using this
    have := pathKey_inj (a2 :: p') (b2 :: q') htail
    rw [hab, this]

theorem pathKey_append_mono (p q : List Nat) (n : Nat) (hp : p ≠ []) (hq : q ≠ [])
    (hlast : p.getLast? = q.getLast?) (hnd : q.Nodup)
    (h : lexLtB (pathKey p) (pathKey q) = true) :
    lexLtB (pathKey (p ++ [n])) (pathKey (q ++ [n])) = true := by
  rw [pathKey_append p [n] hp (by simp), pathKey_append q [n] hq (by simp)]
  rw [show pathKey [n] = decChars n from rfl]
  apply lexLtB_append_suffix _ _ _ h (pathKey_chars q)
  intro u hu
  obtain ⟨r, hr, hqr⟩ := parseExtend p q u hp hq hu
  subst hqr
  obtain ⟨v, hv⟩ : ∃ v, p.getLast? = some v := by
    cases p with
    | nil => exact absurd rfl hp
    | cons x xs => exact ⟨_, List.getLast?_eq_getLast_of_ne_nil (by simp)⟩
  have hvr : r.getLast? = some v := by
    rw [List.getLast?_append_of_ne_nil p hr] at hlast
    rw [← hlast, hv]
  exact (List.disjoint_of_nodup_append hnd) (getLast?_mem_list hv)
    (getLast?_mem_list hvr)

/-! ### The frontier order and extract-min -/

theorem entryLe_refl (d : Rat) (p : List Nat) : entryLe d p d p :=
  Or.inr ⟨rfl, Or.inr rfl⟩

theorem entryLe_trans {d1 d2 d3 : Rat} {p1 p2 p3 : List Nat}
    (h1 : entryLe d1 p1 d2 p2) (h2 : entryLe d2 p2 d3 p3) :
    entryLe d1 p1 d3 p3 := by
  rcases h1 with h1 | ⟨hd1, hk1⟩
  · rcases h2 with h2 | ⟨hd2, _⟩
    · exact Or.inl (lt_trans h1 h2)
    · exact Or.inl (hd2 ▸ h1)
  · rcases h2 with h2 | ⟨hd2, hk2⟩
    · exact Or.inl (hd1 ▸ h2)
    · refine Or.inr ⟨hd1.trans hd2, ?_⟩
      rcases hk1 with hk1 | hk1
      · rcases hk2 with hk2 | hk2
        · exact Or.inl (lexLtB_trans _ _ _ hk1 hk2)
        · exact Or.inl (hk2 ▸ hk1)
      · rcases hk2 with hk2 | hk2
        · exact Or.inl (hk1 ▸ hk2)
        · exact Or.inr (hk1.trans hk2)

theorem not_qLtB_iff (x e : QEntry) :
    qLtB x e = false ↔ entryLe e.risk e.path x.risk x.path := by
  constructor
  · intro h
    rw [qLtB] at h
    by_cases h1 : x.risk < e.risk
    · simp [h1] at h
    · by_cases h2 : e.risk < x.risk
      · exact Or.inl h2
      · have hde : e.risk = x.risk :=
          le_antisymm (not_lt.mp h1) (not_lt.mp h2)
        rw [if_neg h1, if_neg h2] at h
        refine Or.inr ⟨hde, ?_⟩
        by_cases h3 : lexLtB (pathKey e.path) (pathKey x.path) = true
        · exact Or.inl h3
        · have := lexLtB_total _ _ (Bool.not_eq_true _ ▸ h3 : _) h
          exact Or.inr (pathKey_inj _ _ this)
  · intro h
    rcases h with h | ⟨hd, hk⟩
    · rw [qLtB, if_neg (lt_asymm h), if_pos h]
    · rw [qLtB, if_neg (by rw [hd]; exact lt_irrefl _),
        if_neg (by rw [hd]; exact lt_irrefl _)]
      rcases hk with hk | hk
      · exact lexLtB_asymm _ _ hk
      · rw [hk]; exact lexLtB_irrefl _

theorem qLtB_asymm (a b : QEntry) (h : qLtB a b = true) : qLtB b a = false := by
  rw [qLtB] at h ⊢
  by_cases h1 : a.risk < b.risk
  · rw [if_neg (lt_asymm h1), if_pos h1]
  · by_cases h2 : b.risk < a.risk
    · rw [if_neg h1, if_pos h2] at h
      exact absurd h (by simp)
    · rw [if_neg h1, if_neg h2] at h
      rw [if_neg h2, if_neg h1]
      exact lexLtB_asymm _ _ h

theorem extractMin_cons (a : QEntry) (es : List QEntry) :
    extractMin (a :: es) ≠ none := by
  rw [extractMin]
  cases h : extractMin es with
  | none => simp
  | some mr =>
    obtain ⟨m, rest⟩ := mr
    by_cases hq : qLtB m a = true <;> simp [hq]

theorem extractMin_none (l : List QEntry) (h : extractMin l = none) : l = [] := by
  cases l with
  | nil => rfl
  | cons a es => exact absurd h (extractMin_cons a es)

theorem extractMin_perm : ∀ l : List QEntry, ∀ e r,
    extractMin l = some (e, r) → l.Perm (e :: r)
  | [] => by intro e r h; simp [extractMin] at h
  | a :: es => by
    intro e r h
    rw [extractMin] at h
    cases hes : extractMin es with
    | none =>
      have hnil : es = [] := extractMin_none es hes
      subst hnil
      simp only [hes] at h
      simp at h
      rw [h.1, ← h.2]
    | some mr =>
      obtain ⟨m, rest⟩ := mr
      simp only [hes] at h
      have hperm := extractMin_perm es m rest hes
      by_cases hq : qLtB m a = true
      · rw [if_pos hq] at h
        simp at h
        rw [← h.1, ← h.2]
        exact (hperm.cons a).trans (List.Perm.swap m a rest)
      · rw [if_neg hq] at h
        simp at h
        rw [← h.1, ← h.2]

theorem extractMin_min : ∀ l : List QEntry, ∀ e r,
    extractMin l = some (e, r) → ∀ x ∈ l, entryLe e.risk e.path x.risk x.path
  | [] => by intro e r h; simp [extractMin] at h
  | a :: es => by
    intro e r h
    rw [extractMin] at h
    cases hes : extractMin es with
    | none =>
      have hnil : es = [] := extractMin_none es hes
      subst hnil
      simp only [hes] at h
      simp at h
      intro x hx
      rcases List.mem_singleton.mp hx with rfl
      rw [← h.1]
      exact entryLe_refl _ _
    | some mr =>
      obtain ⟨m, rest⟩ := mr
      simp only [hes] at h
      have hmin := extractMin_min es m rest hes
      by_cases hq : qLtB m a = true
      · rw [if_pos hq] at h
        simp at h
        intro x hx
        rw [← h.1]
        rcases List.mem_cons.mp hx with rfl | hx
        · exact (not_qLtB_iff x m).mp (qLtB_asymm m x hq)
        · exact hmin x hx
      · rw [if_neg hq] at h
        simp at h
        intro x hx
        rw [← h.1]
        rcases List.mem_cons.mp hx with rfl | hx
        · exact entryLe_refl _ _
        · exact entryLe_trans
            ((not_qLtB_iff m a).mp (Bool.not_eq_true _ ▸ hq : _)) (hmin x hx)

/-! ### Path weights and path decomposition -/

theorem wPath_nonneg (w : RiskFun) (hw : ∀ a b, 0 ≤ w a b) :
    ∀ p : List Nat, 0 ≤ wPath w p
  | [] => le_refl _
  | [_] => le_refl _
  | a :: b :: t => by
    rw [wPath]
    have := wPath_nonneg w hw (b :: t)
    have := hw a b
    linarith

theorem wPath_append_last (w : RiskFun) : ∀ (p : List Nat) (u n : Nat),
    p.getLast? = some u → wPath w (p ++ [n]) = wPath w p + w u n
  | [], u, n => by intro h; simp at h
  | [a], u, n => by
    intro h
    simp at h
    subst h
    show w a n + 0 = 0 + w a n
    ring
  | a :: b :: t, u, n => by
    intro h
    have hlast : (b :: t).getLast? = some u := by
      rwa [List.getLast?_cons_cons] at h
    show w a b + wPath w ((b :: t) ++ [n]) = (w a b + wPath w (b :: t)) + w u n
    rw [wPath_append_last w (b :: t) u n hlast]
    ring

theorem wPath_split (w : RiskFun) : ∀ (l : List Nat) (a : Nat) (m : List Nat),
    wPath w (l ++ a :: m) = wPath w (l ++ [a]) + wPath w (a :: m)
  | [], a, m => by
    show wPath w (a :: m) = wPath w [a] + wPath w (a :: m)
    rw [show wPath w [a] = 0 from rfl]; ring
  | [x], a, m => by
    show wPath w (x :: a :: m) = wPath w (x :: [a]) + wPath w (a :: m)
    rw [wPath, wPath, show wPath w [a] = 0 from rfl]
    ring
  | x :: y :: l, a, m => by
    show wPath w (x :: y :: (l ++ a :: m)) =
      wPath w (x :: y :: (l ++ [a])) + wPath w (a :: m)
    rw [wPath, wPath]
    rw [show y :: (l ++ a :: m) = (y :: l) ++ a :: m from rfl,
      show y :: (l ++ [a]) = (y :: l) ++ [a] from rfl]
    rw [wPath_split w (y :: l) a m]
    ring

theorem wPath_prefix_le (w : RiskFun) (hw : ∀ a b, 0 ≤ w a b) :
    ∀ (q0 r : List Nat), q0 ≠ [] → wPath w q0 ≤ wPath w (q0 ++ r)
  | q0, [], _ => by simp
  | q0, b :: r', h0 => by
    rw [wPath_split w q0 b r']
    obtain ⟨v, hv⟩ : ∃ v, q0.getLast? = some v := by
      cases q0 with
      | nil => exact absurd rfl h0
      | cons x xs => exact ⟨_, List.getLast?_eq_getLast_of_ne_nil (by simp)⟩
    rw [wPath_append_last w q0 v b hv]
    have h1 := hw v b
    have h2 := wPath_nonneg w hw (b :: r')
    linarith

theorem entryLe_self_prefix (w : RiskFun) (hw : ∀ a b, 0 ≤ w a b)
    (q0 r : List Nat) (h0 : q0 ≠ []) :
    entryLe (wPath w q0) q0 (wPath w (q0 ++ r)) (q0 ++ r) := by
  cases r with
  | nil => simpa using entryLe_refl (wPath w q0) q0
  | cons b r' =>
    rcases lt_or_eq_of_le (wPath_prefix_le w hw q0 (b :: r') h0) with h | h
    · exact Or.inl h
    · refine Or.inr ⟨h, Or.inl ?_⟩
      rw [pathKey_append q0 (b :: r') h0 (by simp)]
      exact lexLtB_append_self _ _ (by simp)

theorem headIn_append (seeds : List Nat) : ∀ (p r : List Nat), p ≠ [] →
    headIn seeds p → headIn seeds (p ++ r)
  | [], _, hp => absurd rfl hp
  | a :: t, r, _ => fun h => h

theorem headIn_of_append (seeds : List Nat) : ∀ (p r : List Nat), p ≠ [] →
    headIn seeds (p ++ r) → headIn seeds p
  | [], _, hp => absurd rfl hp
  | a :: t, r, _ => fun h => h

theorem GPath_prefix {adj : Nat → List Nat} {seeds : List Nat}
    {q0 r : List Nat} (h0 : q0 ≠ []) (h : GPath adj seeds (q0 ++ r)) :
    GPath adj seeds q0 :=
  ⟨(List.chain'_append.mp h.1).1, headIn_of_append seeds q0 r h0 h.2⟩

theorem GPath_append_edge {adj : Nat → List Nat} {seeds : List Nat}
    {p : List Nat} {u n : Nat} (hp : GPath adj seeds p)
    (hu : p.getLast? = some u) (hn : n ∈ adj u) :
    GPath adj seeds (p ++ [n]) := by
  have hpne : p ≠ [] := by
    intro h; subst h; simp at hu
  refine ⟨List.chain'_append.mpr ⟨hp.1, List.chain'_singleton n, ?_⟩,
    headIn_append seeds p [n] hpne hp.2⟩
  intro x hx y hy
  simp at hy
  rw [hu] at hx
  simp at hx
  rw [← hx, ← hy]
  exact hn

theorem exists_crossing (vis : Finset Nat) : ∀ (q : List Nat) (x : Nat),
    q.getLast? = some x → x ∉ vis →
    ∃ q0 r x0, q = q0 ++ r ∧ q0.getLast? = some x0 ∧ x0 ∉ vis ∧
      ∀ y ∈ q0.dropLast, y ∈ vis
  | [], x => by intro h _; simp at h
  | [a], x => by
    intro h hx
    simp at h
    subst h
    exact ⟨[a], [], a, by simp, rfl, hx, by simp⟩
  | a :: b :: t, x => by
    intro h hx
    by_cases ha : a ∈ vis
    · have hlast : (b :: t).getLast? = some x := by
        rwa [List.getLast?_cons_cons] at h
      obtain ⟨q0, r, x0, hsplit, hlast0, hx0, hint⟩ :=
        exists_crossing vis (b :: t) x hlast hx
      have hq0ne : q0 ≠ [] := by
        intro hq0; subst hq0; simp at hlast0
      refine ⟨a :: q0, r, x0, by rw [hsplit]; rfl, ?_, hx0, ?_⟩
      · rw [← hlast0]
        cases q0 with
        | nil => exact absurd rfl hq0ne
        | cons c cs => rfl
      · intro y hy
        cases q0 with
        | nil => exact absurd rfl hq0ne
        | cons c cs =>
          rw [List.dropLast_cons₂] at hy
          rcases List.mem_cons.mp hy with rfl | hy
          · exact ha
          · exact hint y hy
    · exact ⟨[a], b :: t, a, rfl, rfl, ha, by simp⟩

theorem exists_dup_split : ∀ q : List Nat, ¬ q.Nodup →
    ∃ a l1 l2 l3, q = l1 ++ a :: l2 ++ a :: l3
  | [] => fun h => absurd List.nodup_nil h
  | x :: t => fun h => by
    by_cases hx : x ∈ t
    · obtain ⟨l2, l3, ht⟩ := List.append_of_mem hx
      exact ⟨x, [], l2, l3, by rw [ht]; rfl⟩
    · have hnt : ¬ t.Nodup := by
        intro hnd
        exact h (List.nodup_cons.mpr ⟨hx, hnd⟩)
      obtain ⟨a, l1, l2, l3, ht⟩ := exists_dup_split t hnt
      exact ⟨a, x :: l1, l2, l3, by rw [ht]; rfl⟩

theorem exists_nodup_path (adj : Nat → List Nat) (w : RiskFun)
    (hw : ∀ a b, 0 ≤ w a b) (q : List Nat) (hc : List.Chain' (IsEdge adj) q) :
    ∃ q2, List.Chain' (IsEdge adj) q2 ∧ q2.Nodup ∧ q2.head? = q.head? ∧
      q2.getLast? = q.getLast? ∧ wPath w q2 ≤ wPath w q := by
  by_cases hnd : q.Nodup
  · exact ⟨q, hc, hnd, rfl, rfl, le_refl _⟩
  · obtain ⟨a, l1, l2, l3, hq⟩ := exists_dup_split q hnd
    obtain ⟨hcl1a2, hc2, hlink1⟩ := List.chain'_append.mp (hq ▸ hc)
    obtain ⟨hcl1, hcal2, hlink0⟩ := List.chain'_append.mp hcl1a2
    have hchain2 : List.Chain' (IsEdge adj) (l1 ++ a :: l3) :=
      List.chain'_append.mpr ⟨hcl1, hc2, by
        intro x hx y hy
        simp at hy
        exact hy ▸ hlink0 x hx a rfl⟩
    obtain ⟨q3, hq3c, hq3nd, hq3h, hq3l, hq3w⟩ :=
      exists_nodup_path adj w hw (l1 ++ a :: l3) hchain2
    refine ⟨q3, hq3c, hq3nd, ?_, ?_, ?_⟩
    · rw [hq3h, hq]
      cases l1 <;> rfl
    · rw [hq3l, hq]
      rw [List.getLast?_append_of_ne_nil l1 (by simp),
        List.getLast?_append_of_ne_nil (l1 ++ a :: l2) (by simp)]
    · refine le_trans hq3w ?_
      rw [hq]
      rw [wPath_split w l1 a l3, wPath_split w (l1 ++ a :: l2) a l3]
      have hfold : (l1 ++ a :: l2) ++ [a] = l1 ++ a :: (l2 ++ [a]) := by simp
      rw [hfold, wPath_split w l1 a (l2 ++ [a])]
      have := wPath_nonneg w hw (a :: (l2 ++ [a]))
      linarith
termination_by q.length
decreasing_by
  simp [hq]
  omega

/-! ### Dijkstra loop invariant: frontier coverage -/

theorem entryLe_extend {dv d2 : Rat} {pv q2 : List Nat} (n : Nat) (c : Rat)
    (hq2 : q2 ≠ []) (hlast : pv.getLast? = q2.getLast?) (hnd : q2.Nodup)
    (h : entryLe dv pv d2 q2) :
    entryLe (dv + c) (pv ++ [n]) (d2 + c) (q2 ++ [n]) := by
  rcases h with h | ⟨hd, hk⟩
  · exact Or.inl (by linarith)
  · refine Or.inr ⟨by rw [hd], ?_⟩
    rcases hk with hk | hk
    · have hpv : pv ≠ [] := by
        intro hx
        subst hx
        rw [show ([] : List Nat).getLast? = none from rfl] at hlast
        cases q2 with
        | nil => exact hq2 rfl
        | cons a t =>
          exact absurd hlast.symm (by
            simp [List.getLast?_eq_getLast_of_ne_nil
              (show a :: t ≠ [] by simp)])
      exact Or.inl (pathKey_append_mono pv q2 n hpv hq2 hlast hnd hk)
    · exact Or.inr (by rw [hk])

theorem mem_rest_of_perm {x e : QEntry} {l r : List QEntry}
    (hperm : l.Perm (e :: r)) (hx : x ∈ l) (hne : x ≠ e) : x ∈ r := by
  rcases List.mem_cons.mp (hperm.mem_iff.mp hx) with h | h
  · exact absurd h hne
  · exact h

theorem crossing_cover {adj : Nat → List Nat} {w : RiskFun} {seeds : List Nat}
    {V : Finset Nat} {st : DState} (hinv : DInv adj w seeds V st)
    (q0 : List Nat) (x0 : Nat) (hgp : GPath adj seeds q0) (hnd : q0.Nodup)
    (hlast : q0.getLast? = some x0) (hx0 : x0 ∉ st.visited)
    (hint : ∀ y ∈ q0.dropLast, y ∈ st.visited) :
    ∃ e ∈ st.pq, e.node = x0 ∧ entryLe e.risk e.path (wPath w q0) q0 := by
  have hq0ne : q0 ≠ [] := by intro h; subst h; simp at hlast
  have hsplit : q0.dropLast ++ [x0] = q0 :=
    List.dropLast_append_getLast? x0 hlast
  cases hq1 : q0.dropLast with
  | nil =>
    have hq0 : q0 = [x0] := by rw [← hsplit, hq1]; rfl
    have hx0seeds : x0 ∈ seeds := by
      have := hgp.2
      rw [hq0] at this
      exact this
    refine ⟨⟨0, x0, [x0]⟩, hinv.seedsPq x0 hx0seeds hx0, rfl, ?_⟩
    rw [hq0]
    exact entryLe_refl 0 [x0]
  | cons c cs =>
    have hq1ne : q0.dropLast ≠ [] := by rw [hq1]; simp
    obtain ⟨v, hv⟩ : ∃ v, q0.dropLast.getLast? = some v := by
      rw [hq1]; exact ⟨_, List.getLast?_eq_getLast_of_ne_nil (by simp)⟩
    have hvmem : v ∈ q0.dropLast := getLast?_mem_list hv
    have hvvis : v ∈ st.visited := hint v hvmem
    obtain ⟨dv, pv, hpvg, hpvl, hpvw, hpvn, hopt, hsucc⟩ :=
      hinv.popped v hvvis
    have hedge : x0 ∈ adj v := by
      have hc := hgp.1
      rw [← hsplit] at hc
      obtain ⟨_, _, hlink⟩ := List.chain'_append.mp hc
      exact hlink v hv x0 rfl
    obtain ⟨e, hepq, henode, hecov⟩ := hsucc x0 hedge hx0
    refine ⟨e, hepq, henode, ?_⟩
    refine entryLe_trans hecov ?_
    have hgp1 : GPath adj seeds q0.dropLast := by
      rw [← hsplit] at hgp
      exact GPath_prefix hq1ne hgp
    have hnd1 : q0.dropLast.Nodup :=
      (List.dropLast_sublist q0).nodup hnd
    have hq0w : wPath w q0 = wPath w q0.dropLast + w v x0 := by
      conv_lhs => rw [← hsplit]
      exact wPath_append_last w q0.dropLast v x0 hv
    have hle := hopt q0.dropLast hgp1 hnd1 hv
    have hext := entryLe_extend x0 (w v x0) hq1ne
      (by rw [hpvl, hv]) hnd1 hle
    rw [hsplit] at hext
    rw [hq0w]
    exact hext

theorem headIn_iff (seeds : List Nat) : ∀ p : List Nat,
    headIn seeds p ↔ ∃ a, p.head? = some a ∧ a ∈ seeds
  | [] => by
    constructor
    · intro h; exact absurd h (fun h => h)
    · intro h; obtain ⟨a, ha, _⟩ := h; simp at ha
  | a :: t => by
    constructor
    · intro h; exact ⟨a, rfl, h⟩
    · intro ⟨b, hb, hbs⟩
      have : b = a := by simpa using hb.symm
      exact this ▸ hbs

theorem popped_min {adj : Nat → List Nat} {w : RiskFun} {seeds : List Nat}
    {V : Finset Nat} {st : DState} (hinv : DInv adj w seeds V st)
    (hw : ∀ a b, 0 ≤ w a b) (e : QEntry) (r : List QEntry)
    (hex : extractMin st.pq = some (e, r)) (hx : e.node ∉ st.visited) :
    ∀ q, GPath adj seeds q → q.Nodup → q.getLast? = some e.node →
      entryLe e.risk e.path (wPath w q) q := by
  intro q hgp hnd hlast
  obtain ⟨q0, rr, x0, hq, hlast0, hx0, hint⟩ :=
    exists_crossing st.visited q e.node hlast hx
  have hq0ne : q0 ≠ [] := by intro h; subst h; simp at hlast0
  have hgp0 : GPath adj seeds q0 := by
    rw [hq] at hgp
    exact GPath_prefix hq0ne hgp
  have hnd0 : q0.Nodup := by
    rw [hq] at hnd
    exact hnd.of_append_left
  obtain ⟨e2, he2pq, he2node, he2cov⟩ :=
    crossing_cover hinv q0 x0 hgp0 hnd0 hlast0 hx0 hint
  have hmin := extractMin_min st.pq e r hex e2 he2pq
  refine entryLe_trans hmin (entryLe_trans he2cov ?_)
  rw [hq]
  exact entryLe_self_prefix w hw q0 rr hq0ne

theorem relaxOne_step {adj : Nat → List Nat} {w : RiskFun} {seeds : List Nat}
    {V : Finset Nat} {u : Nat} {du : Rat} {pu : List Nat} {vis' : Finset Nat}
    (hgp : GPath adj seeds pu) (hlast : pu.getLast? = some u)
    (hwp : wPath w pu = du) (hndp : pu.Nodup)
    (hpusub : ∀ x ∈ pu, x ∈ vis') (n : Nat)
    (hnV : n ∈ V) (hnadj : n ∈ adj u) (s : DState) (hv : s.visited = vis')
    (h2 : ∀ e ∈ s.pq, e.node ∈ V)
    (h3 : ∀ e ∈ s.pq, GPath adj seeds e.path ∧
      e.path.getLast? = some e.node ∧ wPath w e.path = e.risk ∧
      e.path.Nodup ∧ ∀ x ∈ e.path.dropLast, x ∈ vis')
    (h4 : ∀ x, x ∉ vis' → ∀ dx, s.dist x = some dx →
      ∃ e ∈ s.pq, e.node = x ∧ e.risk = dx)
    (h5 : ∀ r ∈ seeds, r ∉ vis' → (⟨0, r, [r]⟩ : QEntry) ∈ s.pq) :
    (relaxOne w u du pu s n).visited = vis' ∧
    (∀ e ∈ (relaxOne w u du pu s n).pq, e.node ∈ V) ∧
    (∀ e ∈ (relaxOne w u du pu s n).pq, GPath adj seeds e.path ∧
      e.path.getLast? = some e.node ∧ wPath w e.path = e.risk ∧
      e.path.Nodup ∧ ∀ x ∈ e.path.dropLast, x ∈ vis') ∧
    (∀ x, x ∉ vis' → ∀ dx, (relaxOne w u du pu s n).dist x = some dx →
      ∃ e ∈ (relaxOne w u du pu s n).pq, e.node = x ∧ e.risk = dx) ∧
    (∀ r ∈ seeds, r ∉ vis' →
      (⟨0, r, [r]⟩ : QEntry) ∈ (relaxOne w u du pu s n).pq) ∧
    (∀ x ∈ s.pq, x ∈ (relaxOne w u du pu s n).pq) ∧
    (relaxOne w u du pu s n).pq.length ≤ s.pq.length + 1 ∧
    (n ∉ vis' → ∃ e ∈ (relaxOne w u du pu s n).pq, e.node = n ∧
      entryLe e.risk e.path (w u n + du) (pu ++ [n])) := by
  have hEgp : GPath adj seeds (pu ++ [n]) := GPath_append_edge hgp hlast hnadj
  have hElast : (pu ++ [n]).getLast? = some n := by
    rw [List.getLast?_append_of_ne_nil pu (by simp)]; rfl
  have hpune : pu ≠ [] := by intro h; subst h; simp at hlast
  have hEw : wPath w (pu ++ [n]) = w u n + du := by
    rw [wPath_append_last w pu u n hlast, hwp]; ring
  have hEdl : (pu ++ [n]).dropLast = pu := List.dropLast_concat
  by_cases hnv : n ∈ s.visited
  · rw [relaxOne, if_pos hnv]
    refine ⟨hv, h2, h3, h4, h5, fun x hx => hx, by omega, ?_⟩
    intro hn
    exact absurd (hv ▸ hnv) hn
  · have hnvis' : n ∉ vis' := hv ▸ hnv
    have hEnd : (pu ++ [n]).Nodup := by
      rw [List.nodup_append]
      refine ⟨hndp, List.nodup_singleton n, ?_⟩
      intro x hx hx2
      rw [List.mem_singleton] at hx2
      subst hx2
      exact hnvis' (hpusub x hx)
    have hEfacts : GPath adj seeds (pu ++ [n]) ∧
        (pu ++ [n]).getLast? = some n ∧
        wPath w (pu ++ [n]) = w u n + du ∧
        (pu ++ [n]).Nodup ∧ ∀ x ∈ (pu ++ [n]).dropLast, x ∈ vis' := by
      exact ⟨hEgp, hElast, hEw, hEnd, fun x hx => hpusub x (hEdl ▸ hx)⟩
    cases hdist : s.dist n with
    | none =>
      rw [relaxOne, if_neg hnv]
      simp only [hdist]
      refine ⟨hv, ?_, ?_, ?_, ?_, ?_, ?_, ?_⟩
      · intro e he
        rcases List.mem_append.mp he with he | he
        · exact h2 e he
        · rw [List.mem_singleton] at he; subst he; exact hnV
      · intro e he
        rcases List.mem_append.mp he with he | he
        · exact h3 e he
        · rw [List.mem_singleton] at he; subst he; exact hEfacts
      · intro x hx dx hdx
        by_cases hxn : x = n
        · subst hxn
          rw [show updDist s.dist x (w u x + du) x = some (w u x + du) from
            by rw [updDist]; simp] at hdx
          refine ⟨⟨w u x + du, x, pu ++ [x]⟩, by simp, rfl, ?_⟩
          simp at hdx
          rw [hdx]
        · rw [show updDist s.dist n (w u n + du) x = s.dist x from
            by rw [updDist]; simp [hxn]] at hdx
          obtain ⟨e, he, hen, her⟩ := h4 x hx dx hdx
          exact ⟨e, List.mem_append.mpr (Or.inl he), hen, her⟩
      · intro r hr hrv
        exact List.mem_append.mpr (Or.inl (h5 r hr hrv))
      · intro x hx; exact List.mem_append.mpr (Or.inl hx)
      · simp
      · intro _
        exact ⟨⟨w u n + du, n, pu ++ [n]⟩, by simp, rfl, entryLe_refl _ _⟩
    | some dn =>
      by_cases hlt : w u n + du < dn
      · rw [relaxOne, if_neg hnv]
        simp only [hdist, if_pos hlt]
        refine ⟨hv, ?_, ?_, ?_, ?_, ?_, ?_, ?_⟩
        · intro e he
          rcases List.mem_append.mp he with he | he
          · exact h2 e he
          · rw [List.mem_singleton] at he; subst he; exact hnV
        · intro e he
          rcases List.mem_append.mp he with he | he
          · exact h3 e he
          · rw [List.mem_singleton] at he; subst he; exact hEfacts
        · intro x hx dx hdx
          by_cases hxn : x = n
          · subst hxn
            rw [show updDist s.dist x (w u x + du) x = some (w u x + du) from
              by rw [updDist]; simp] at hdx
            refine ⟨⟨w u x + du, x, pu ++ [x]⟩, by simp, rfl, ?_⟩
            simp at hdx
            rw [hdx]
          · rw [show updDist s.dist n (w u n + du) x = s.dist x from
              by rw [updDist]; simp [hxn]] at hdx
            obtain ⟨e, he, hen, her⟩ := h4 x hx dx hdx
            exact ⟨e, List.mem_append.mpr (Or.inl he), hen, her⟩
        · intro r hr hrv
          exact List.mem_append.mpr (Or.inl (h5 r hr hrv))
        · intro x hx; exact List.mem_append.mpr (Or.inl hx)
        · simp
        · intro _
          exact ⟨⟨w u n + du, n, pu ++ [n]⟩, by simp, rfl, entryLe_refl _ _⟩
      · by_cases heq : w u n + du = dn
        · rw [relaxOne, if_neg hnv]
          simp only [hdist, if_neg hlt, if_pos heq]
          refine ⟨hv, ?_, ?_, ?_, ?_, ?_, ?_, ?_⟩
          · intro e he
            rcases List.mem_append.mp he with he | he
            · exact h2 e he
            · rw [List.mem_singleton] at he; subst he; exact hnV
          · intro e he
            rcases List.mem_append.mp he with he | he
            · exact h3 e he
            · rw [List.mem_singleton] at he; subst he; exact hEfacts
          · intro x hx dx hdx
            obtain ⟨e, he, hen, her⟩ := h4 x hx dx hdx
            exact ⟨e, List.mem_append.mpr (Or.inl he), hen, her⟩
          · intro r hr hrv
            exact List.mem_append.mpr (Or.inl (h5 r hr hrv))
          · intro x hx; exact List.mem_append.mpr (Or.inl hx)
          · simp
          · intro _
            exact ⟨⟨w u n + du, n, pu ++ [n]⟩, by simp, rfl, entryLe_refl _ _⟩
        · rw [relaxOne, if_neg hnv]
          simp only [hdist, if_neg hlt, if_neg heq]
          refine ⟨hv, h2, h3, h4, h5, fun x hx => hx, by omega, ?_⟩
          intro _
          have hdnlt : dn < w u n + du :=
            lt_of_le_of_ne (not_lt.mp hlt) (fun h => heq h.symm)
          obtain ⟨e, he, hen, her⟩ := h4 n hnvis' dn hdist
          exact ⟨e, he, hen, Or.inl (her ▸ hdnlt)⟩

theorem relax_fold {adj : Nat → List Nat} {w : RiskFun} {seeds : List Nat}
    {V : Finset Nat} {u : Nat} {du : Rat} {pu : List Nat} {vis' : Finset Nat}
    (hgp : GPath adj seeds pu) (hlast : pu.getLast? = some u)
    (hwp : wPath w pu = du) (hndp : pu.Nodup)
    (hpusub : ∀ x ∈ pu, x ∈ vis') :
    ∀ ns : List Nat, (∀ n ∈ ns, n ∈ V) → (∀ n ∈ ns, n ∈ adj u) →
    ∀ s : DState, s.visited = vis' →
    (∀ e ∈ s.pq, e.node ∈ V) →
    (∀ e ∈ s.pq, GPath adj seeds e.path ∧
      e.path.getLast? = some e.node ∧ wPath w e.path = e.risk ∧
      e.path.Nodup ∧ ∀ x ∈ e.path.dropLast, x ∈ vis') →
    (∀ x, x ∉ vis' → ∀ dx, s.dist x = some dx →
      ∃ e ∈ s.pq, e.node = x ∧ e.risk = dx) →
    (∀ r ∈ seeds, r ∉ vis' → (⟨0, r, [r]⟩ : QEntry) ∈ s.pq) →
    ((ns.foldl (relaxOne w u du pu) s).visited = vis' ∧
     (∀ e ∈ (ns.foldl (relaxOne w u du pu) s).pq, e.node ∈ V) ∧
     (∀ e ∈ (ns.foldl (relaxOne w u du pu) s).pq, GPath adj seeds e.path ∧
       e.path.getLast? = some e.node ∧ wPath w e.path = e.risk ∧
       e.path.Nodup ∧ ∀ x ∈ e.path.dropLast, x ∈ vis') ∧
     (∀ x, x ∉ vis' → ∀ dx, (ns.foldl (relaxOne w u du pu) s).dist x = some dx →
       ∃ e ∈ (ns.foldl (relaxOne w u du pu) s).pq, e.node = x ∧ e.risk = dx) ∧
     (∀ r ∈ seeds, r ∉ vis' →
       (⟨0, r, [r]⟩ : QEntry) ∈ (ns.foldl (relaxOne w u du pu) s).pq) ∧
     (∀ x ∈ s.pq, x ∈ (ns.foldl (relaxOne w u du pu) s).pq) ∧
     (ns.foldl (relaxOne w u du pu) s).pq.length ≤ s.pq.length + ns.length ∧
     (∀ n ∈ ns, n ∉ vis' → ∃ e ∈ (ns.foldl (relaxOne w u du pu) s).pq,
       e.node = n ∧ entryLe e.risk e.path (w u n + du) (pu ++ [n])))
  | [], _, _, s => by
    intro hv h2 h3 h4 h5
    exact ⟨hv, h2, h3, h4, h5, fun x hx => hx, by simp, by simp⟩
  | n :: ns, hnsV, hnsadj, s => by
    intro hv h2 h3 h4 h5
    obtain ⟨k1, k2, k3, k4, k5, kmono, klen, kcov⟩ :=
      relaxOne_step hgp hlast hwp hndp hpusub n
        (hnsV n (by simp)) (hnsadj n (by simp)) s hv h2 h3 h4 h5
    obtain ⟨m1, m2, m3, m4, m5, mmono, mlen, mcov⟩ :=
      relax_fold hgp hlast hwp hndp hpusub ns
        (fun x hx => hnsV x (by simp [hx]))
        (fun x hx => hnsadj x (by simp [hx]))
        (relaxOne w u du pu s n) k1 k2 k3 k4 k5
    rw [show (n :: ns).foldl (relaxOne w u du pu) s =
      ns.foldl (relaxOne w u du pu) (relaxOne w u du pu s n) from rfl]
    refine ⟨m1, m2, m3, m4, m5, fun x hx => mmono x (kmono x hx), by
      simp only [List.length_cons]; omega, ?_⟩
    intro x hx hxv
    rcases List.mem_cons.mp hx with rfl | hx
    · obtain ⟨e, he, hen, hcov⟩ := kcov hxv
      exact ⟨e, mmono e he, hen, hcov⟩
    · exact mcov x hx hxv

theorem DInv_skip {adj : Nat → List Nat} {w : RiskFun} {seeds : List Nat}
    {V : Finset Nat} {st : DState} (hinv : DInv adj w seeds V st)
    (e : QEntry) (rest : List QEntry) (hex : extractMin st.pq = some (e, rest))
    (hvis : e.node ∈ st.visited) :
    DInv adj w seeds V ⟨st.dist, st.visited, rest⟩ := by
  have hperm := extractMin_perm st.pq e rest hex
  have hsub : ∀ x ∈ rest, x ∈ st.pq := fun x hx =>
    hperm.symm.subset (List.mem_cons.mpr (Or.inr hx))
  constructor
  · intro e2 he2; exact hinv.pqV e2 (hsub e2 he2)
  · intro e2 he2; exact hinv.pqPath e2 (hsub e2 he2)
  · intro v hvv
    obtain ⟨dv, pv, a1, a2, a3, a4, a5, a6⟩ := hinv.popped v hvv
    refine ⟨dv, pv, a1, a2, a3, a4, a5, ?_⟩
    intro n hn hnv
    obtain ⟨e2, he2, hen, hcov⟩ := a6 n hn hnv
    have hne : e2 ≠ e := by
      intro h
      exact hnv (by rw [← hen, h]; exact hvis)
    exact ⟨e2, mem_rest_of_perm hperm he2 hne, hen, hcov⟩
  · intro x hx dx hdx
    obtain ⟨e2, he2, hen, her⟩ := hinv.distReal x hx dx hdx
    have hne : e2 ≠ e := by
      intro h
      exact hx (by rw [← hen, h]; exact hvis)
    exact ⟨e2, mem_rest_of_perm hperm he2 hne, hen, her⟩
  · intro r hr hrv
    have hmem := hinv.seedsPq r hr hrv
    have hne : (⟨0, r, [r]⟩ : QEntry) ≠ e := by
      intro h
      apply hrv
      have hnode : e.node = r := by rw [← h]
      rw [← hnode]
      exact hvis
    exact mem_rest_of_perm hperm hmem hne

theorem DInv_visit {adj : Nat → List Nat} {w : RiskFun} {seeds : List Nat}
    {V : Finset Nat} {st : DState} (hinv : DInv adj w seeds V st)
    (hw : ∀ a b, 0 ≤ w a b)
    (hadjV : ∀ a, ∀ n ∈ adj a, n ∈ V)
    (e : QEntry) (rest : List QEntry) (hex : extractMin st.pq = some (e, rest))
    (hvis : e.node ∉ st.visited) :
    DInv adj w seeds V (visitNode adj w e ⟨st.dist, st.visited, rest⟩) ∧
    (visitNode adj w e ⟨st.dist, st.visited, rest⟩).visited =
      insert e.node st.visited ∧
    (visitNode adj w e ⟨st.dist, st.visited, rest⟩).pq.length ≤
      rest.length + (adj e.node).length := by
  have hperm := extractMin_perm st.pq e rest hex
  have hsub : ∀ x ∈ rest, x ∈ st.pq := fun x hx =>
    hperm.symm.subset (List.mem_cons.mpr (Or.inr hx))
  have hepq : e ∈ st.pq := hperm.symm.subset (List.mem_cons.mpr (Or.inl rfl))
  obtain ⟨hgp, hlaste, hwpe, hnde, hdle⟩ := hinv.pqPath e hepq
  have hpusub : ∀ x ∈ e.path, x ∈ insert e.node st.visited := by
    intro x hx
    have hsplit : e.path.dropLast ++ [e.node] = e.path :=
      List.dropLast_append_getLast? e.node hlaste
    rw [← hsplit] at hx
    rcases List.mem_append.mp hx with hx | hx
    · exact Finset.mem_insert_of_mem (hdle x hx)
    · rw [List.mem_singleton] at hx
      rw [hx]
      exact Finset.mem_insert_self _ _
  have hpopt := popped_min hinv hw e rest hex hvis
  have hfold := relax_fold hgp hlaste hwpe hnde hpusub (adj e.node)
    (hadjV e.node) (fun n hn => hn)
    ⟨st.dist, insert e.node st.visited, rest⟩ rfl
    (fun e2 he2 => hinv.pqV e2 (hsub e2 he2))
    (fun e2 he2 => by
      obtain ⟨b1, b2, b3, b4, b5⟩ := hinv.pqPath e2 (hsub e2 he2)
      exact ⟨b1, b2, b3, b4, fun x hx => Finset.mem_insert_of_mem (b5 x hx)⟩)
    (fun x hx dx hdx => by
      have hxv : x ∉ st.visited := fun h => hx (Finset.mem_insert_of_mem h)
      have hxe : x ≠ e.node := fun h => hx (h ▸ Finset.mem_insert_self _ _)
      obtain ⟨e2, he2, hen, her⟩ := hinv.distReal x hxv dx hdx
      have hne : e2 ≠ e := fun h => hxe (by rw [← hen, h])
      exact ⟨e2, mem_rest_of_perm hperm he2 hne, hen, her⟩)
    (fun r hr hrv => by
      have hrv2 : r ∉ st.visited := fun h => hrv (Finset.mem_insert_of_mem h)
      have hre : r ≠ e.node := fun h => hrv (h ▸ Finset.mem_insert_self _ _)
      have hmem := hinv.seedsPq r hr hrv2
      have hne : (⟨0, r, [r]⟩ : QEntry) ≠ e := by
        intro h
        apply hre
        rw [← h]
      exact mem_rest_of_perm hperm hmem hne)
  obtain ⟨m1, m2, m3, m4, m5, mmono, mlen, mcov⟩ := hfold
  have hpost : visitNode adj w e ⟨st.dist, st.visited, rest⟩ =
      (adj e.node).foldl (relaxOne w e.node e.risk e.path)
        ⟨st.dist, insert e.node st.visited, rest⟩ := rfl
  rw [hpost]
  refine ⟨?_, m1, mlen⟩
  constructor
  · exact m2
  · intro e2 he2
    obtain ⟨b1, b2, b3, b4, b5⟩ := m3 e2 he2
    exact ⟨b1, b2, b3, b4, fun x hx => by rw [m1]; exact b5 x hx⟩
  · intro v hvv
    rw [m1] at hvv
    rcases Finset.mem_insert.mp hvv with rfl | hvv
    · refine ⟨e.risk, e.path, hgp, hlaste, hwpe, hnde, hpopt, ?_⟩
      intro n hn hnv
      rw [m1] at hnv
      obtain ⟨e2, he2, hen, hcov⟩ := mcov n hn hnv
      refine ⟨e2, he2, hen, ?_⟩
      rw [add_comm e.risk (w e.node n)]
      exact hcov
    · obtain ⟨dv, pv, a1, a2, a3, a4, a5, a6⟩ := hinv.popped v hvv
      refine ⟨dv, pv, a1, a2, a3, a4, a5, ?_⟩
      intro n hn hnv
      rw [m1] at hnv
      have hnv2 : n ∉ st.visited := fun h => hnv (Finset.mem_insert_of_mem h)
      have hne2 : n ≠ e.node := fun h => hnv (h ▸ Finset.mem_insert_self _ _)
      obtain ⟨e2, he2, hen, hcov⟩ := a6 n hn hnv2
      have hne : e2 ≠ e := fun h => hne2 (by rw [← hen, h])
      exact ⟨e2, mmono e2 (mem_rest_of_perm hperm he2 hne), hen, hcov⟩
  · intro x hx dx hdx
    rw [m1] at hx
    exact m4 x hx dx hdx
  · intro r hr hrv
    rw [m1] at hrv
    exact m5 r hr hrv

theorem phi_visit {adj : Nat → List Nat} {V : Finset Nat} (u : Nat)
    (hu : u ∈ V) (vis : Finset Nat) (hunv : u ∉ vis) :
    (V \ insert u vis).sum (fun x => (adj x).length) + (adj u).length =
      (V \ vis).sum (fun x => (adj x).length) := by
  have h1 : V \ insert u vis = (V \ vis).erase u := by
    ext x
    simp only [Finset.mem_sdiff, Finset.mem_erase, Finset.mem_insert]
    tauto
  rw [h1]
  exact Finset.sum_erase_add _ _ (Finset.mem_sdiff.mpr ⟨hu, hunv⟩)

theorem dloop_main {adj : Nat → List Nat} {w : RiskFun} {seeds : List Nat}
    {V : Finset Nat} {target : Nat} (hw : ∀ a b, 0 ≤ w a b)
    (hadjV : ∀ a, ∀ n ∈ adj a, n ∈ V) :
    ∀ fuel (st : DState), DInv adj w seeds V st → phiD adj V st ≤ fuel →
      target ∉ st.visited →
      ((dloop adj w target fuel st = none →
        ∀ q, GPath adj seeds q → q.getLast? = some target → False) ∧
       (∀ d p, dloop adj w target fuel st = some (d, p) →
         GPath adj seeds p ∧ p.getLast? = some target ∧ wPath w p = d ∧
         p.Nodup ∧
         ∀ q, GPath adj seeds q → q.Nodup → q.getLast? = some target →
           entryLe d p (wPath w q) q))
  | 0, st => by
    intro _ hphi _
    rw [phiD] at hphi
    omega
  | fuel+1, st => by
    intro hinv hphi htv
    rw [dloop]
    cases hex : extractMin st.pq with
    | none =>
      have hpq : st.pq = [] := extractMin_none st.pq hex
      constructor
      · intro _ q hq hql
        obtain ⟨q2, hc2, hnd2, hh2, hl2, _⟩ :=
          exists_nodup_path adj w hw q hq.1
        have hgp2 : GPath adj seeds q2 := by
          refine ⟨hc2, ?_⟩
          rw [headIn_iff]
          obtain ⟨a, ha, has⟩ := (headIn_iff seeds q).mp hq.2
          exact ⟨a, hh2 ▸ ha, has⟩
        have hl2t : q2.getLast? = some target := by rw [hl2, hql]
        obtain ⟨q0, rr, x0, hsp, hlast0, hx0, hint⟩ :=
          exists_crossing st.visited q2 target hl2t htv
        have hq0ne : q0 ≠ [] := by intro h; subst h; simp at hlast0
        obtain ⟨e2, he2, _, _⟩ := crossing_cover hinv q0 x0
          (by rw [hsp] at hgp2; exact GPath_prefix hq0ne hgp2)
          (by rw [hsp] at hnd2; exact hnd2.of_append_left)
          hlast0 hx0 hint
        rw [hpq] at he2
        simp at he2
      · intro d p h
        exact absurd h (by simp)
    | some er =>
      obtain ⟨e, rest⟩ := er
      have hperm := extractMin_perm st.pq e rest hex
      have hlen : st.pq.length = rest.length + 1 := by
        rw [hperm.length_eq]; rfl
      by_cases hv : e.node ∈ st.visited
      · simp only [if_pos hv]
        have hphi2 : phiD adj V ⟨st.dist, st.visited, rest⟩ ≤ fuel := by
          rw [show phiD adj V ⟨st.dist, st.visited, rest⟩ =
            rest.length + (V \ st.visited).sum (fun x => (adj x).length) + 1
            from rfl]
          rw [phiD] at hphi
          omega
        exact dloop_main hw hadjV fuel ⟨st.dist, st.visited, rest⟩
          (DInv_skip hinv e rest hex hv) hphi2 htv
      · by_cases ht : e.node = target
        · simp only [if_neg hv, if_pos ht]
          constructor
          · intro h; exact absurd h (by simp)
          · intro d p h
            simp only [Option.some.injEq, Prod.mk.injEq] at h
            have hepq : e ∈ st.pq :=
              hperm.symm.subset (List.mem_cons.mpr (Or.inl rfl))
            obtain ⟨hgp, hlaste, hwpe, hnde, _⟩ := hinv.pqPath e hepq
            have hopt := popped_min hinv hw e rest hex hv
            rw [← h.1, ← h.2]
            refine ⟨hgp, by rw [hlaste, ht], hwpe, hnde, ?_⟩
            intro q hq hqnd hql
            exact hopt q hq hqnd (by rw [hql, ht])
        · simp only [if_neg hv, if_neg ht]
          obtain ⟨hinv2, hvis2, hlen2⟩ :=
            DInv_visit hinv hw hadjV e rest hex hv
          have huV : e.node ∈ V :=
            hinv.pqV e (hperm.symm.subset (List.mem_cons.mpr (Or.inl rfl)))
          have hphi2 : phiD adj V
              (visitNode adj w e ⟨st.dist, st.visited, rest⟩) ≤ fuel := by
            rw [phiD] at hphi ⊢
            rw [hvis2]
            have hsum := @phi_visit adj V e.node huV st.visited hv
            omega
          have htv2 : target ∉
              (visitNode adj w e ⟨st.dist, st.visited, rest⟩).visited := by
            rw [hvis2]
            intro hmem
            rcases Finset.mem_insert.mp hmem with h | h
            · exact ht h.symm
            · exact htv h
          exact dloop_main hw hadjV fuel _ hinv2 hphi2 htv2

/-! ### Initial states and engine-level correctness -/

theorem initMulti_dist : ∀ (rs : List Nat) (d : Nat → Option Rat) (x : Nat)
    (dx : Rat), (rs.foldl (fun d r => updDist d r 0) d) x = some dx →
    d x = some dx ∨ (x ∈ rs ∧ dx = 0)
  | [], d, x, dx => fun h => Or.inl h
  | r :: rs, d, x, dx => by
    intro h
    rcases initMulti_dist rs (updDist d r 0) x dx h with h2 | h2
    · rw [updDist] at h2
      by_cases hxr : x = r
      · rw [if_pos hxr] at h2
        simp at h2
        exact Or.inr ⟨by rw [hxr]; simp, h2.symm⟩
      · rw [if_neg hxr] at h2
        exact Or.inl h2
    · exact Or.inr ⟨by simp [h2.1], h2.2⟩

theorem DInv_initMulti {adj : Nat → List Nat} {w : RiskFun} {V : Finset Nat}
    (seeds : List Nat) (hseedsV : ∀ r ∈ seeds, r ∈ V) :
    DInv adj w seeds V (initMulti seeds) := by
  constructor
  · intro e he
    simp only [initMulti, List.mem_map] at he
    obtain ⟨r, hr, hre⟩ := he
    rw [← hre]
    exact hseedsV r hr
  · intro e he
    simp only [initMulti, List.mem_map] at he
    obtain ⟨r, hr, hre⟩ := he
    rw [← hre]
    exact ⟨⟨List.chain'_singleton r, hr⟩, rfl, rfl, List.nodup_singleton r,
      by simp⟩
  · intro v hv
    simp [initMulti] at hv
  · intro x hx dx hdx
    simp only [initMulti] at hdx
    rcases initMulti_dist seeds (fun _ => none) x dx hdx with h | h
    · simp at h
    · refine ⟨⟨0, x, [x]⟩, ?_, rfl, h.2.symm⟩
      simp only [initMulti, List.mem_map]
      exact ⟨x, h.1, rfl⟩
  · intro r hr _
    simp only [initMulti, List.mem_map]
    exact ⟨r, hr, rfl⟩

theorem DInv_initSingle {adj : Nat → List Nat} {w : RiskFun} {V : Finset Nat}
    (start : Nat) (hstart : start ∈ V) :
    DInv adj w [start] V (initSingle start) := by
  constructor
  · intro e he
    simp only [initSingle, List.mem_singleton] at he
    rw [he]
    exact hstart
  · intro e he
    simp only [initSingle, List.mem_singleton] at he
    rw [he]
    exact ⟨⟨List.chain'_singleton start, by simp [headIn]⟩, rfl, rfl,
      List.nodup_singleton start, by simp⟩
  · intro v hv
    simp [initSingle] at hv
  · intro x hx dx hdx
    simp only [initSingle] at hdx
    exact absurd hdx (by simp)
  · intro r hr _
    simp only [List.mem_singleton] at hr
    rw [hr]
    simp [initSingle]

theorem DInv_initSingle2 {adj : Nat → List Nat} {w : RiskFun} {V : Finset Nat}
    (start : Nat) (hstart : start ∈ V) :
    DInv adj w [start] V (initSingle2 start) := by
  constructor
  · intro e he
    simp only [initSingle2, List.mem_singleton] at he
    rw [he]
    exact hstart
  · intro e he
    simp only [initSingle2, List.mem_singleton] at he
    rw [he]
    exact ⟨⟨List.chain'_singleton start, by simp [headIn]⟩, rfl, rfl,
      List.nodup_singleton start, by simp⟩
  · intro v hv
    simp [initSingle2] at hv
  · intro x hx dx hdx
    simp only [initSingle2, updDist] at hdx
    by_cases hxs : x = start
    · rw [if_pos hxs] at hdx
      simp at hdx
      refine ⟨⟨0, start, [start]⟩, by simp [initSingle2], by rw [hxs],
        by rw [← hdx]⟩
    · rw [if_neg hxs] at hdx
      simp at hdx
  · intro r hr _
    simp only [List.mem_singleton] at hr
    rw [hr]
    simp [initSingle2]

theorem phiD_initMulti (adj : Nat → List Nat) (V : Finset Nat)
    (seeds : List Nat) :
    phiD adj V (initMulti seeds) = fuelFor adj V seeds.length := by
  rw [phiD, fuelFor, degSum, initMulti]
  simp

theorem phiD_initSingle (adj : Nat → List Nat) (V : Finset Nat) (start : Nat) :
    phiD adj V (initSingle start) = fuelFor adj V 1 := by
  rw [phiD, fuelFor, degSum, initSingle]
  simp

theorem phiD_initSingle2 (adj : Nat → List Nat) (V : Finset Nat) (start : Nat) :
    phiD adj V (initSingle2 start) = fuelFor adj V 1 := by
  rw [phiD, fuelFor, degSum, initSingle2]
  simp

theorem adjOf_mem_idSet (sensors : List Sensor) (a n : Nat)
    (h : n ∈ adjOf sensors a) : n ∈ idSet sensors := by
  rw [adjOf] at h
  rw [List.mem_flatten] at h
  obtain ⟨l, hl, hnl⟩ := h
  rw [List.mem_map] at hl
  obtain ⟨s, hs, hsl⟩ := hl
  rw [← hsl] at hnl
  rw [List.mem_map] at hnl
  obtain ⟨d, _, hdn⟩ := hnl
  rw [idSet, List.mem_toFinset, List.mem_map]
  exact ⟨s, hs, hdn⟩

theorem rootsOf_mem_iff (sensors : List Sensor) (r : Nat) :
    r ∈ rootsOf sensors ↔
      ∃ s ∈ sensors, s.id = r ∧ s.dependencies = [] := by
  rw [rootsOf]
  rw [(List.perm_insertionSort (· ≤ ·) _).mem_iff]
  rw [List.mem_map]
  constructor
  · intro ⟨s, hs, hsr⟩
    rw [List.mem_filter] at hs
    exact ⟨s, hs.1, hsr, by simpa [List.isEmpty_iff] using hs.2⟩
  · intro ⟨s, hs, hsr, hdeps⟩
    exact ⟨s, List.mem_filter.mpr ⟨hs, by simp [hdeps]⟩, hsr⟩

theorem rootsOf_mem_idSet (sensors : List Sensor) (r : Nat)
    (h : r ∈ rootsOf sensors) : r ∈ idSet sensors := by
  obtain ⟨s, hs, hsr, _⟩ := (rootsOf_mem_iff sensors r).mp h
  rw [idSet, List.mem_toFinset, List.mem_map]
  exact ⟨s, hs, hsr⟩

theorem multiRoot_correct (sensors : List Sensor) (w : RiskFun) (target : Nat)
    (hw : ∀ a b, 0 ≤ w a b) :
    (multiRootDijkstra sensors w target = none →
      ∀ q, GPath (adjOf sensors) (rootsOf sensors) q →
        q.getLast? = some target → False) ∧
    (∀ d p, multiRootDijkstra sensors w target = some (d, p) →
      GPath (adjOf sensors) (rootsOf sensors) p ∧
      p.getLast? = some target ∧ wPath w p = d ∧ p.Nodup ∧
      ∀ q, GPath (adjOf sensors) (rootsOf sensors) q → q.Nodup →
        q.getLast? = some target → entryLe d p (wPath w q) q) := by
  exact @dloop_main (adjOf sensors) w (rootsOf sensors) (idSet sensors)
    target hw
    (fun a n hn => adjOf_mem_idSet sensors a n hn)
    (fuelFor (adjOf sensors) (idSet sensors) (rootsOf sensors).length)
    (initMulti (rootsOf sensors))
    (DInv_initMulti _ (fun r hr => rootsOf_mem_idSet sensors r hr))
    (le_of_eq (phiD_initMulti _ _ _))
    (by simp [initMulti])

theorem dijkstra_correct (sensors : List Sensor) (w : RiskFun)
    (start target : Nat) (hw : ∀ a b, 0 ≤ w a b)
    (hstart : start ∈ idSet sensors) :
    (dijkstra sensors w start target = none →
      ∀ q, GPath (adjOf sensors) [start] q →
        q.getLast? = some target → False) ∧
    (∀ d p, dijkstra sensors w start target = some (d, p) →
      GPath (adjOf sensors) [start] p ∧
      p.getLast? = some target ∧ wPath w p = d ∧ p.Nodup ∧
      ∀ q, GPath (adjOf sensors) [start] q → q.Nodup →
        q.getLast? = some target → entryLe d p (wPath w q) q) := by
  exact @dloop_main (adjOf sensors) w [start] (idSet sensors) target hw
    (fun a n hn => adjOf_mem_idSet sensors a n hn)
    (fuelFor (adjOf sensors) (idSet sensors) 1)
    (initSingle start)
    (DInv_initSingle start hstart)
    (le_of_eq (phiD_initSingle _ _ _))
    (by simp [initSingle])

theorem dijkstra2_correct (sensors : List Sensor) (w : RiskFun)
    (start target : Nat) (hw : ∀ a b, 0 ≤ w a b)
    (hstart : start ∈ idSet sensors) :
    (dijkstra2 sensors w start target = none →
      ∀ q, GPath (adjOf sensors) [start] q →
        q.getLast? = some target → False) ∧
    (∀ d p, dijkstra2 sensors w start target = some (d, p) →
      GPath (adjOf sensors) [start] p ∧
      p.getLast? = some target ∧ wPath w p = d ∧ p.Nodup ∧
      ∀ q, GPath (adjOf sensors) [start] q → q.Nodup →
        q.getLast? = some target → entryLe d p (wPath w q) q) := by
  exact @dloop_main (adjOf sensors) w [start] (idSet sensors) target hw
    (fun a n hn => adjOf_mem_idSet sensors a n hn)
    (fuelFor (adjOf sensors) (idSet sensors) 1)
    (initSingle2 start)
    (DInv_initSingle2 start hstart)
    (le_of_eq (phiD_initSingle2 _ _ _))
    (by simp [initSingle2])

/-! ### The best-candidate scans of the outer loop -/

theorem dIdLe_trans {d0 d1 d2 : Rat} {r0 r1 r2 : Nat}
    (h1 : d0 < d1 ∨ (d0 = d1 ∧ r0 ≤ r1))
    (h2 : d1 < d2 ∨ (d1 = d2 ∧ r1 ≤ r2)) :
    d0 < d2 ∨ (d0 = d2 ∧ r0 ≤ r2) := by
  rcases h1 with h1 | ⟨h1, h1r⟩
  · rcases h2 with h2 | ⟨h2, _⟩
    · exact Or.inl (lt_trans h1 h2)
    · exact Or.inl (h2 ▸ h1)
  · rcases h2 with h2 | ⟨h2, h2r⟩
    · exact Or.inl (h1 ▸ h2)
    · exact Or.inr ⟨h1.trans h2, le_trans h1r h2r⟩

theorem selectBest_eq (g : Nat → Option (Rat × List Nat))
    (pending : List Nat) :
    selectBest g pending = pending.foldl (scanStep g) none := rfl

theorem findBest_eq (dij : Nat → Nat → Option (Rat × List Nat))
    (roots : List Nat) (target : Nat) :
    findBestPathToTarget dij roots target =
      roots.foldl (scanStep (fun r => dij r target)) none := rfl

theorem scanBest_spec (g : Nat → Option (Rat × List Nat)) :
    ∀ (rs : List Nat) (acc : Option (Nat × Rat × List Nat)),
    ((rs.foldl (scanStep g) acc = none) ↔
      (acc = none ∧ ∀ r ∈ rs, g r = none)) ∧
    (∀ r0 d0 p0, rs.foldl (scanStep g) acc = some (r0, d0, p0) →
      (acc = some (r0, d0, p0) ∨ (r0 ∈ rs ∧ g r0 = some (d0, p0))) ∧
      (∀ r ∈ rs, ∀ d p, g r = some (d, p) → d0 < d ∨ (d0 = d ∧ r0 ≤ r)) ∧
      (∀ br bd bp, acc = some (br, bd, bp) →
        d0 < bd ∨ (d0 = bd ∧ r0 ≤ br)))
  | [], acc => by
    constructor
    · simp
    · intro r0 d0 p0 h
      simp at h
      refine ⟨Or.inl h, by simp, ?_⟩
      intro br bd bp hacc
      rw [h] at hacc
      have h2 := Option.some.inj hacc
      rw [Prod.mk.injEq, Prod.mk.injEq] at h2
      exact Or.inr ⟨h2.2.1, le_of_eq h2.1⟩
  | r :: rs, acc => by
    rw [show (r :: rs).foldl (scanStep g) acc =
      rs.foldl (scanStep g) (scanStep g acc r) from rfl]
    cases hgr : g r with
    | none =>
      have hstep : scanStep g acc r = acc := by
        rw [scanStep, hgr]
      rw [hstep]
      obtain ⟨ih1, ih2⟩ := scanBest_spec g rs acc
      constructor
      · rw [ih1]
        constructor
        · intro ⟨ha, hall⟩
          refine ⟨ha, ?_⟩
          intro x hx
          rcases List.mem_cons.mp hx with rfl | hx
          · exact hgr
          · exact hall x hx
        · intro ⟨ha, hall⟩
          exact ⟨ha, fun x hx => hall x (List.mem_cons.mpr (Or.inr hx))⟩
      · intro r0 d0 p0 h
        obtain ⟨horig, hmin, haccmin⟩ := ih2 r0 d0 p0 h
        refine ⟨?_, ?_, haccmin⟩
        · rcases horig with h2 | h2
          · exact Or.inl h2
          · exact Or.inr ⟨List.mem_cons.mpr (Or.inr h2.1), h2.2⟩
        · intro x hx d p hgx
          rcases List.mem_cons.mp hx with rfl | hx
          · rw [hgr] at hgx; exact absurd hgx (by simp)
          · exact hmin x hx d p hgx
    | some dp =>
      obtain ⟨d, p⟩ := dp
      cases acc with
      | none =>
        have hstep : scanStep g none r = some (r, d, p) := by
          rw [scanStep, hgr]
        rw [hstep]
        obtain ⟨ih1, ih2⟩ := scanBest_spec g rs (some (r, d, p))
        constructor
        · rw [ih1]
          constructor
          · intro ⟨ha, _⟩
            exact absurd ha (by simp)
          · intro ⟨_, hall⟩
            exact absurd (hall r (by simp)) (by simp [hgr])
        · intro r0 d0 p0 h
          obtain ⟨horig, hmin, haccmin⟩ := ih2 r0 d0 p0 h
          refine ⟨?_, ?_, ?_⟩
          · rcases horig with h2 | h2
            · have h3 := Option.some.inj h2.symm
              rw [Prod.mk.injEq, Prod.mk.injEq] at h3
              exact Or.inr ⟨by simp [h3.1], by
                rw [h3.1, hgr, h3.2.1, h3.2.2]⟩
            · exact Or.inr ⟨List.mem_cons.mpr (Or.inr h2.1), h2.2⟩
          · intro x hx d2 p2 hgx
            rcases List.mem_cons.mp hx with rfl | hx
            · rw [hgr] at hgx
              have h3 := Option.some.inj hgx
              rw [Prod.mk.injEq] at h3
              exact dIdLe_trans (haccmin x d p rfl)
                (Or.inr ⟨h3.1, le_refl x⟩)
            · exact hmin x hx d2 p2 hgx
          · intro br bd bp hacc
            exact absurd hacc (by simp)
      | some acc0 =>
        obtain ⟨br, bd, bp⟩ := acc0
        by_cases hcond : d < bd ∨ (d = bd ∧ r < br)
        · have hstep : scanStep g (some (br, bd, bp)) r = some (r, d, p) := by
            rw [scanStep, hgr]
            simp only [if_pos hcond]
          rw [hstep]
          obtain ⟨ih1, ih2⟩ := scanBest_spec g rs (some (r, d, p))
          constructor
          · rw [ih1]
            constructor
            · intro ⟨ha, _⟩
              exact absurd ha (by simp)
            · intro ⟨_, hall⟩
              exact absurd (hall r (by simp)) (by simp [hgr])
          · intro r0 d0 p0 h
            obtain ⟨horig, hmin, haccmin⟩ := ih2 r0 d0 p0 h
            have hle_rd : d0 < d ∨ (d0 = d ∧ r0 ≤ r) := by
              rcases horig with h2 | h2
              · have h3 := Option.some.inj h2.symm
                rw [Prod.mk.injEq, Prod.mk.injEq] at h3
                exact Or.inr ⟨h3.2.1, le_of_eq h3.1⟩
              · exact haccmin r d p rfl
            refine ⟨?_, ?_, ?_⟩
            · rcases horig with h2 | h2
              · have h3 := Option.some.inj h2.symm
                rw [Prod.mk.injEq, Prod.mk.injEq] at h3
                exact Or.inr ⟨by simp [h3.1], by
                  rw [h3.1, hgr, h3.2.1, h3.2.2]⟩
              · exact Or.inr ⟨List.mem_cons.mpr (Or.inr h2.1), h2.2⟩
            · intro x hx d2 p2 hgx
              rcases List.mem_cons.mp hx with rfl | hx
              · rw [hgr] at hgx
                have h3 := Option.some.inj hgx
                rw [Prod.mk.injEq] at h3
                rw [← h3.1]
                exact hle_rd
              · exact hmin x hx d2 p2 hgx
            · intro br2 bd2 bp2 hacc
              have h3 := Option.some.inj hacc
              rw [Prod.mk.injEq, Prod.mk.injEq] at h3
              rw [← h3.1, ← h3.2.1]
              have hcond2 : d < bd ∨ (d = bd ∧ r ≤ br) := by
                rcases hcond with h2 | h2
                · exact Or.inl h2
                · exact Or.inr ⟨h2.1, le_of_lt h2.2⟩
              exact dIdLe_trans hle_rd hcond2
        · have hstep : scanStep g (some (br, bd, bp)) r =
              some (br, bd, bp) := by
            rw [scanStep, hgr]
            simp only [if_neg hcond]
          rw [hstep]
          obtain ⟨ih1, ih2⟩ := scanBest_spec g rs (some (br, bd, bp))
          have hbdle : bd < d ∨ (bd = d ∧ br ≤ r) := by
            rcases lt_trichotomy d bd with h2 | h2 | h2
            · exact absurd (Or.inl h2) hcond
            · by_cases h3 : r < br
              · exact absurd (Or.inr ⟨h2, h3⟩) hcond
              · exact Or.inr ⟨h2.symm, not_lt.mp h3⟩
            · exact Or.inl h2
          constructor
          · rw [ih1]
            constructor
            · intro ⟨ha, _⟩
              exact absurd ha (by simp)
            · intro ⟨ha, _⟩
              exact absurd ha (by simp)
          · intro r0 d0 p0 h
            obtain ⟨horig, hmin, haccmin⟩ := ih2 r0 d0 p0 h
            refine ⟨?_, ?_, ?_⟩
            · rcases horig with h2 | h2
              · exact Or.inl h2
              · exact Or.inr ⟨List.mem_cons.mpr (Or.inr h2.1), h2.2⟩
            · intro x hx d2 p2 hgx
              rcases List.mem_cons.mp hx with rfl | hx
              · rw [hgr] at hgx
                have h3 := Option.some.inj hgx
                rw [Prod.mk.injEq] at h3
                rw [← h3.1]
                exact dIdLe_trans (haccmin br bd bp rfl) hbdle
              · exact hmin x hx d2 p2 hgx
            · exact haccmin

/-! ### Risk store lemmas -/

theorem zeroFold : ∀ (ps : List (Nat × Nat)) (rm : RiskFun) (a b : Nat),
    (ps.foldl (fun m ab => setRisk m ab.1 ab.2 0) rm) a b =
      if (a, b) ∈ ps then 0 else rm a b
  | [], rm, a, b => by simp
  | (x, y) :: ps, rm, a, b => by
    rw [List.foldl_cons, zeroFold ps (setRisk rm x y 0) a b]
    by_cases hin : (a, b) ∈ ps
    · rw [if_pos hin, if_pos (List.mem_cons.mpr (Or.inr hin))]
    · rw [if_neg hin]
      by_cases hxy : a = x ∧ b = y
      · rw [show setRisk rm x y 0 a b = 0 from by rw [setRisk, if_pos hxy]]
        rw [if_pos (List.mem_cons.mpr (Or.inl (by rw [hxy.1, hxy.2])))]
      · rw [show setRisk rm x y 0 a b = rm a b from by rw [setRisk, if_neg hxy]]
        rw [if_neg (by
          intro hmem
          rcases List.mem_cons.mp hmem with h | h
          · exact hxy (by
              have := Prod.mk.injEq a b x y ▸ h
              exact Prod.mk.inj h)
          · exact hin h)]

theorem zeroPath_eq (rm : RiskFun) (p : List Nat) (a b : Nat) :
    zeroPath rm p a b = if (a, b) ∈ consecPairs p then 0 else rm a b :=
  zeroFold (consecPairs p) rm a b

theorem zeroPath_preserves_zero (rm : RiskFun) (q : List Nat) (a b : Nat)
    (h : rm a b = 0) : zeroPath rm q a b = 0 := by
  rw [zeroPath_eq]
  split <;> simp [h]

theorem zeroPath_nonneg (rm : RiskFun) (p : List Nat)
    (h : ∀ a b, 0 ≤ rm a b) : ∀ a b, 0 ≤ zeroPath rm p a b := by
  intro a b
  rw [zeroPath_eq]
  split
  · exact le_refl 0
  · exact h a b

theorem initialRisk_fold_cases : ∀ (rs : List RiskEntry) (m : RiskFun)
    (a b : Nat),
    (rs.foldl (fun m r => setRisk m r.fromSensor r.toSensor r.risk) m) a b
        = m a b ∨
      ∃ e ∈ rs,
        (rs.foldl (fun m r => setRisk m r.fromSensor r.toSensor r.risk) m) a b
          = e.risk
  | [], m, a, b => Or.inl rfl
  | r :: rs, m, a, b => by
    rw [List.foldl_cons]
    rcases initialRisk_fold_cases rs (setRisk m r.fromSensor r.toSensor r.risk)
        a b with h | ⟨e, he, heq⟩
    · rw [h, setRisk]
      by_cases hab : a = r.fromSensor ∧ b = r.toSensor
      · rw [if_pos hab]
        exact Or.inr ⟨r, by simp, rfl⟩
      · rw [if_neg hab]
        exact Or.inl rfl
    · exact Or.inr ⟨e, List.mem_cons.mpr (Or.inr he), heq⟩

theorem initialRisk_nonneg (risks : List RiskEntry)
    (h : ∀ e ∈ risks, 0 ≤ e.risk) : ∀ a b, 0 ≤ initialRisk risks a b := by
  intro a b
  rcases initialRisk_fold_cases risks (fun _ _ => 0) a b with h2 | ⟨e, he, h2⟩
  · rw [initialRisk, h2]
  · rw [initialRisk, h2]
    exact h e he

theorem filter_ne_length_lt (l : List Nat) (a : Nat) (h : a ∈ l) :
    (l.filter (fun x => x ≠ a)).length < l.length :=
  (List.length_filter_lt_length_iff_exists).mpr ⟨a, h, by simp⟩

/-! ### Validity of returned paths (no assumptions on risks) -/

theorem relaxOne_pq_cases (w : RiskFun) (u : Nat) (du : Rat) (pu : List Nat)
    (s : DState) (n : Nat) :
    (relaxOne w u du pu s n).pq = s.pq ∨
    (relaxOne w u du pu s n).pq = s.pq ++ [⟨w u n + du, n, pu ++ [n]⟩] := by
  by_cases hv : n ∈ s.visited
  · rw [relaxOne, if_pos hv]
    exact Or.inl rfl
  · rw [relaxOne, if_neg hv]
    cases hdist : s.dist n with
    | none => simp [hdist]
    | some dn =>
      by_cases h1 : w u n + du < dn
      · simp [hdist, h1]
      · by_cases h2 : w u n + du = dn
        · simp [hdist, h1, h2]
        · simp [hdist, h1, h2]

theorem foldl_relax_pq_mem (w : RiskFun) (u : Nat) (du : Rat) (pu : List Nat) :
    ∀ (ns : List Nat) (s : DState),
      ∀ x ∈ (ns.foldl (relaxOne w u du pu) s).pq,
        x ∈ s.pq ∨ ∃ n, x = ⟨w u n + du, n, pu ++ [n]⟩
  | [], s => fun x hx => Or.inl hx
  | n :: ns, s => by
    intro x hx
    rw [List.foldl_cons] at hx
    rcases foldl_relax_pq_mem w u du pu ns (relaxOne w u du pu s n) x hx
      with h | h
    · rcases relaxOne_pq_cases w u du pu s n with hc | hc
      · rw [hc] at h; exact Or.inl h
      · rw [hc] at h
        rcases List.mem_append.mp h with h | h
        · exact Or.inl h
        · rw [List.mem_singleton] at h; exact Or.inr ⟨n, h⟩
    · exact Or.inr h

theorem dloop_last (adj : Nat → List Nat) (w : RiskFun) (target : Nat) :
    ∀ fuel (st : DState), (∀ e ∈ st.pq, e.path.getLast? = some e.node) →
      ∀ d p, dloop adj w target fuel st = some (d, p) →
        p.getLast? = some target
  | 0, st => by intro _ d p h; simp [dloop] at h
  | fuel+1, st => by
    intro hlast d p h
    rw [dloop] at h
    cases hex : extractMin st.pq with
    | none => simp [hex] at h
    | some er =>
      obtain ⟨e, rest⟩ := er
      simp only [hex] at h
      have hperm := extractMin_perm st.pq e rest hex
      have hsub : ∀ x ∈ rest, x ∈ st.pq := fun x hx =>
        hperm.symm.subset (List.mem_cons.mpr (Or.inr hx))
      have hepq : e ∈ st.pq :=
        hperm.symm.subset (List.mem_cons.mpr (Or.inl rfl))
      by_cases hv : e.node ∈ st.visited
      · rw [if_pos hv] at h
        exact dloop_last adj w target fuel _
          (fun x hx => hlast x (hsub x hx)) d p h
      · by_cases ht : e.node = target
        · rw [if_neg hv, if_pos ht] at h
          simp only [Option.some.injEq, Prod.mk.injEq] at h
          rw [← h.2, hlast e hepq, ht]
        · rw [if_neg hv, if_neg ht] at h
          refine dloop_last adj w target fuel _ ?_ d p h
          intro x hx
          rcases foldl_relax_pq_mem w e.node e.risk e.path (adj e.node)
            ⟨st.dist, insert e.node st.visited, rest⟩ x hx with h2 | ⟨n, h2⟩
          · exact hlast x (hsub x h2)
          · rw [h2]
            show (e.path ++ [n]).getLast? = some n
            rw [List.getLast?_append_of_ne_nil e.path (by simp)]
            rfl

theorem multiRoot_last (sensors : List Sensor) (w : RiskFun) (t : Nat)
    (d : Rat) (p : List Nat)
    (h : multiRootDijkstra sensors w t = some (d, p)) :
    p.getLast? = some t := by
  refine dloop_last (adjOf sensors) w t _ (initMulti (rootsOf sensors)) ?_ d p h
  intro e he
  simp only [initMulti, List.mem_map] at he
  obtain ⟨r, _, hre⟩ := he
  rw [← hre]
  rfl

theorem dijkstra_last (sensors : List Sensor) (w : RiskFun) (s t : Nat)
    (d : Rat) (p : List Nat)
    (h : dijkstra sensors w s t = some (d, p)) :
    p.getLast? = some t := by
  refine dloop_last (adjOf sensors) w t _ (initSingle s) ?_ d p h
  intro e he
  simp only [initSingle, List.mem_singleton] at he
  rw [he]
  rfl

theorem findBest_last (dij : Nat → Nat → Option (Rat × List Nat))
    (roots : List Nat) (t : Nat)
    (hval : ∀ r d p, dij r t = some (d, p) → p.getLast? = some t)
    (r0 : Nat) (d0 : Rat) (p0 : List Nat)
    (h : findBestPathToTarget dij roots t = some (r0, d0, p0)) :
    p0.getLast? = some t := by
  rw [findBest_eq] at h
  obtain ⟨horig, _, _⟩ :=
    (scanBest_spec (fun r => dij r t) roots none).2 r0 d0 p0 h
  rcases horig with h2 | h2
  · exact absurd h2 (by simp)
  · exact hval r0 d0 p0 h2.2

/-! ### Run-level properties of the outer loop -/

theorem selectBest_some_facts (g : Nat → Option (Rat × List Nat))
    (pending : List Nat) (t : Nat) (d : Rat) (p : List Nat)
    (h : selectBest g pending = some (t, d, p)) :
    t ∈ pending ∧ g t = some (d, p) ∧
      ∀ t2 ∈ pending, ∀ d2 p2, g t2 = some (d2, p2) →
        d < d2 ∨ (d = d2 ∧ t ≤ t2) := by
  rw [selectBest_eq] at h
  obtain ⟨horig, hmin, _⟩ := (scanBest_spec g pending none).2 t d p h
  rcases horig with h2 | h2
  · exact absurd h2 (by simp)
  · exact ⟨h2.1, h2.2, hmin⟩

theorem selectBest_none_iff (g : Nat → Option (Rat × List Nat))
    (pending : List Nat) :
    selectBest g pending = none ↔ ∀ t ∈ pending, g t = none := by
  rw [selectBest_eq]
  rw [(scanBest_spec g pending none).1]
  simp

theorem solveLoop_basic (engine : RiskFun → Nat → Option (Rat × List Nat))
    (hval : ∀ rm t d p, engine rm t = some (d, p) → p.getLast? = some t) :
    ∀ fuel (pending : List Nat) (rm : RiskFun),
      ((solveLoop engine fuel pending rm).map (fun x => x.1)).Nodup ∧
      ∀ x ∈ solveLoop engine fuel pending rm, x.1 ∈ pending ∧
        x.2.2.getLast? = some x.1
  | 0, pending, rm => by simp [solveLoop]
  | fuel+1, pending, rm => by
    rw [solveLoop]
    by_cases hemp : pending.isEmpty = true
    · rw [if_pos hemp]
      simp
    · rw [if_neg hemp]
      cases hsel : selectBest (engine rm) pending with
      | none => simp
      | some tdp =>
        obtain ⟨t, d, p⟩ := tdp
        obtain ⟨ht, hengine, _⟩ :=
          selectBest_some_facts (engine rm) pending t d p hsel
        obtain ⟨ihnd, ihmem⟩ := solveLoop_basic engine hval fuel
          (pending.filter (fun x => x ≠ t)) (zeroPath rm p)
        constructor
        · simp only [List.map_cons]
          rw [List.nodup_cons]
          refine ⟨?_, ihnd⟩
          intro hmem2
          rw [List.mem_map] at hmem2
          obtain ⟨x, hx, hxt⟩ := hmem2
          have hxp := (ihmem x hx).1
          rw [List.mem_filter] at hxp
          exact absurd hxt (by simpa using hxp.2)
        · intro x hx
          rcases List.mem_cons.mp hx with rfl | hx
          · exact ⟨ht, hval rm t d p hengine⟩
          · obtain ⟨h1, h2⟩ := ihmem x hx
            rw [List.mem_filter] at h1
            exact ⟨h1.1, h2⟩

theorem engine_none_iff (sensors : List Sensor) (w : RiskFun) (t : Nat)
    (hw : ∀ a b, 0 ≤ w a b) :
    heistEngine sensors w t = none ↔
      ¬ CanReach (adjOf sensors) (rootsOf sensors) t := by
  constructor
  · intro h hreach
    obtain ⟨q, hq, hql⟩ := hreach
    exact (multiRoot_correct sensors w t hw).1 h q hq hql
  · intro h
    cases hres : heistEngine sensors w t with
    | none => rfl
    | some dp =>
      obtain ⟨d, p⟩ := dp
      obtain ⟨hgp, hlast, _, _, _⟩ :=
        (multiRoot_correct sensors w t hw).2 d p hres
      exact absurd ⟨p, hgp, hlast⟩ h

theorem solveLoop_reach (sensors : List Sensor) :
    ∀ fuel (pending : List Nat) (rm : RiskFun), (∀ a b, 0 ≤ rm a b) →
      pending.length ≤ fuel →
      ∀ t, (t ∈ (solveLoop (heistEngine sensors) fuel pending rm).map
          (fun x => x.1)) ↔
        (t ∈ pending ∧ CanReach (adjOf sensors) (rootsOf sensors) t)
  | 0, pending, rm => by
    intro _ hlen t
    have : pending = [] := List.length_eq_zero.mp (Nat.le_zero.mp hlen)
    subst this
    simp [solveLoop]
  | fuel+1, pending, rm => by
    intro hw hlen t
    rw [solveLoop]
    by_cases hemp : pending.isEmpty = true
    · rw [if_pos hemp]
      have : pending = [] := List.isEmpty_iff.mp hemp
      subst this
      simp
    · rw [if_neg hemp]
      cases hsel : selectBest (heistEngine sensors rm) pending with
      | none =>
        have hall := (selectBest_none_iff (heistEngine sensors rm) pending).mp hsel
        simp only [List.map_nil, List.not_mem_nil, false_iff]
        intro ⟨htp, hreach⟩
        exact (engine_none_iff sensors rm t hw).mp (hall t htp) hreach
      | some tdp =>
        obtain ⟨t0, d0, p0⟩ := tdp
        obtain ⟨ht0, hengine, _⟩ :=
          selectBest_some_facts (heistEngine sensors rm) pending t0 d0 p0 hsel
        have hreach0 : CanReach (adjOf sensors) (rootsOf sensors) t0 := by
          obtain ⟨hgp, hlast, _, _, _⟩ :=
            (multiRoot_correct sensors rm t0 hw).2 d0 p0 hengine
          exact ⟨p0, hgp, hlast⟩
        have hlen2 : (pending.filter (fun x => x ≠ t0)).length ≤ fuel := by
          have := filter_ne_length_lt pending t0 ht0
          omega
        have ih := solveLoop_reach sensors fuel
          (pending.filter (fun x => x ≠ t0)) (zeroPath rm p0)
          (zeroPath_nonneg rm p0 hw) hlen2 t
        simp only [List.map_cons, List.mem_cons]
        constructor
        · intro h
          rcases h with rfl | h
          · exact ⟨ht0, hreach0⟩
          · obtain ⟨h1, h2⟩ := ih.mp h
            rw [List.mem_filter] at h1
            exact ⟨h1.1, h2⟩
        · intro ⟨htp, hreach⟩
          by_cases htt0 : t = t0
          · exact Or.inl htt0
          · refine Or.inr (ih.mpr ⟨?_, hreach⟩)
            rw [List.mem_filter]
            exact ⟨htp, by simpa using htt0⟩

theorem solveLoop_traceMin (engine : RiskFun → Nat → Option (Rat × List Nat)) :
    ∀ fuel (pending : List Nat) (rm : RiskFun),
      traceMinB engine (solveLoop engine fuel pending rm) pending rm = true
  | 0, pending, rm => by simp [solveLoop, traceMinB]
  | fuel+1, pending, rm => by
    rw [solveLoop]
    by_cases hemp : pending.isEmpty = true
    · rw [if_pos hemp]
      simp [traceMinB]
    · rw [if_neg hemp]
      cases hsel : selectBest (engine rm) pending with
      | none => simp [traceMinB]
      | some tdp =>
        obtain ⟨t, d, p⟩ := tdp
        obtain ⟨ht, hengine, hmin⟩ :=
          selectBest_some_facts (engine rm) pending t d p hsel
        rw [traceMinB]
        simp only [Bool.and_eq_true, decide_eq_true_eq, List.all_eq_true]
        refine ⟨⟨⟨ht, ?_⟩, ?_⟩, solveLoop_traceMin engine fuel _ _⟩
        · rw [hengine]
          simp
        · intro t2 ht2
          cases hg2 : engine rm t2 with
          | none => simp
          | some dp2 =>
            obtain ⟨d2, p2⟩ := dp2
            simp only [decide_eq_true_eq]
            exact hmin t2 ht2 d2 p2 hg2

/-! ### Agreement of the two engines on single-digit identifiers -/

theorem decAux_zero (fuel : Nat) : decAux fuel 0 = [] := by
  cases fuel <;> rfl

theorem decChars_le9 (n : Nat) (h : n ≤ 9) : decChars n = [48 + n] := by
  by_cases h0 : n = 0
  · subst h0; rfl
  · rw [decChars, if_neg h0]
    obtain ⟨m, rfl⟩ : ∃ m, n = m + 1 := ⟨n - 1, by omega⟩
    rw [decAux]
    have h10 : (m + 1) / 10 = 0 := Nat.div_eq_of_lt (by omega)
    have hmod : (m + 1) % 10 = m + 1 := Nat.mod_eq_of_lt (by omega)
    rw [h10, hmod, decAux_zero]
    rfl

theorem pathKey_head_digit (r : Nat) (hr : r ≤ 9) (p : List Nat) :
    ∃ t, pathKey (r :: p) = (48 + r) :: t := by
  cases p with
  | nil =>
    refine ⟨[], ?_⟩
    rw [show pathKey [r] = decChars r from rfl, decChars_le9 r hr]
  | cons b t =>
    refine ⟨commaCode :: pathKey (b :: t), ?_⟩
    rw [pathKey, decChars_le9 r hr]
    rfl

theorem lexLtB_head_lt {r1 r2 : Nat} (h1 : r1 ≤ 9) (h2 : r2 ≤ 9)
    (hlt : r1 < r2) (p1 p2 : List Nat) :
    lexLtB (pathKey (r1 :: p1)) (pathKey (r2 :: p2)) = true := by
  obtain ⟨t1, ht1⟩ := pathKey_head_digit r1 h1 p1
  obtain ⟨t2, ht2⟩ := pathKey_head_digit r2 h2 p2
  rw [ht1, ht2, lexLtB, if_pos (by omega : 48 + r1 < 48 + r2)]

theorem entryLe_antisymm {d1 d2 : Rat} {p1 p2 : List Nat}
    (h1 : entryLe d1 p1 d2 p2) (h2 : entryLe d2 p2 d1 p1) :
    d1 = d2 ∧ p1 = p2 := by
  rcases h1 with h1 | ⟨h1d, h1k⟩
  · rcases h2 with h2 | ⟨h2d, _⟩
    · exact absurd h2 (lt_asymm h1)
    · exact absurd h1 (by rw [h2d]; exact lt_irrefl _)
  · rcases h2 with h2 | ⟨h2d, h2k⟩
    · exact absurd h2 (by rw [h1d]; exact lt_irrefl _)
    · refine ⟨h1d, ?_⟩
      rcases h1k with h1k | h1k
      · rcases h2k with h2k | h2k
        · exact absurd h1k (by rw [lexLtB_asymm _ _ h2k]; simp)
        · rw [h2k] at h1k
          exact absurd h1k (by rw [lexLtB_irrefl]; simp)
      · exact h1k

theorem GPath_head_mem {adj : Nat → List Nat} {seeds : List Nat}
    {p : List Nat} (h : GPath adj seeds p) :
    ∃ a t, p = a :: t ∧ a ∈ seeds := by
  cases p with
  | nil => exact absurd h.2 (fun h => h)
  | cons a t => exact ⟨a, t, rfl, h.2⟩

theorem GPath_seeds_of_single {adj : Nat → List Nat} {r : Nat}
    {roots : List Nat} {p : List Nat} (hr : r ∈ roots)
    (h : GPath adj [r] p) : GPath adj roots p := by
  refine ⟨h.1, ?_⟩
  cases p with
  | nil => exact absurd h.2 (fun h => h)
  | cons a t =>
    have har : a ∈ [r] := h.2
    have : a = r := by simpa using har
    show a ∈ roots
    rw [this]
    exact hr

theorem GPath_single_of_head {adj : Nat → List Nat} {roots : List Nat}
    {p : List Nat} {a : Nat} {t : List Nat} (hp : p = a :: t)
    (h : GPath adj roots p) : GPath adj [a] p := by
  refine ⟨h.1, ?_⟩
  rw [hp]
  show a ∈ [a]
  simp

theorem heistEngine1_eq_digit (sensors : List Sensor) (w : RiskFun) (t : Nat)
    (hw : ∀ a b, 0 ≤ w a b) (hdig : ∀ s ∈ sensors, s.id ≤ 9) :
    heistEngine1 sensors w t = heistEngine sensors w t := by
  have hrootdig : ∀ r ∈ rootsOf sensors, r ≤ 9 := by
    intro r hr
    obtain ⟨s, hs, hsr, _⟩ := (rootsOf_mem_iff sensors r).mp hr
    rw [← hsr]
    exact hdig s hs
  show (findBestPathToTarget (fun r tg => dijkstra sensors w r tg)
    (rootsOf sensors) t).map (fun x => x.2) = multiRootDijkstra sensors w t
  cases hM : multiRootDijkstra sensors w t with
  | none =>
    have hFnone : findBestPathToTarget (fun r tg => dijkstra sensors w r tg)
        (rootsOf sensors) t = none := by
      rw [findBest_eq]
      rw [(scanBest_spec _ _ none).1]
      refine ⟨rfl, ?_⟩
      intro r hr
      cases hd : dijkstra sensors w r t with
      | none => rfl
      | some dp =>
        obtain ⟨d, p⟩ := dp
        obtain ⟨hgp, hlast, _, _, _⟩ :=
          (dijkstra_correct sensors w r t hw
            (rootsOf_mem_idSet sensors r hr)).2 d p hd
        exact absurd hlast ((fun hl =>
          (multiRoot_correct sensors w t hw).1 hM p
            (GPath_seeds_of_single hr hgp) hl) |> fun f => fun hl => f hl)
    rw [hFnone]
    rfl
  | some dp =>
    obtain ⟨d, p⟩ := dp
    obtain ⟨hgpM, hlastM, hwpM, hndM, hminM⟩ :=
      (multiRoot_correct sensors w t hw).2 d p hM
    obtain ⟨rp, tp, hpshape, hrp⟩ := GPath_head_mem hgpM
    cases hF : findBestPathToTarget (fun r tg => dijkstra sensors w r tg)
        (rootsOf sensors) t with
    | none =>
      rw [findBest_eq] at hF
      obtain ⟨-, hall⟩ := ((scanBest_spec _ _ none).1).mp hF
      exact absurd hlastM
        (fun hl => (dijkstra_correct sensors w rp t hw
          (rootsOf_mem_idSet sensors rp hrp)).1 (hall rp hrp) p
          (GPath_single_of_head hpshape hgpM) hl)
    | some rdp =>
      obtain ⟨r0, d0, p0⟩ := rdp
      rw [findBest_eq] at hF
      obtain ⟨horig, hminF, -⟩ := (scanBest_spec _ _ none).2 r0 d0 p0 hF
      rcases horig with hbad | ⟨hr0, hdij0⟩
      · exact absurd hbad (by simp)
      obtain ⟨hgp0, hlast0, hwp0, hnd0, hmin0⟩ :=
        (dijkstra_correct sensors w r0 t hw
          (rootsOf_mem_idSet sensors r0 hr0)).2 d0 p0 hdij0
      have hcompmin : ∀ q, GPath (adjOf sensors) (rootsOf sensors) q →
          q.Nodup → q.getLast? = some t →
          entryLe d0 p0 (wPath w q) q := by
        intro q hq hqnd hql
        obtain ⟨rq, tq, hqshape, hrq⟩ := GPath_head_mem hq
        cases hdq : dijkstra sensors w rq t with
        | none =>
          exact absurd hql
            (fun hl => (dijkstra_correct sensors w rq t hw
              (rootsOf_mem_idSet sensors rq hrq)).1 hdq q
              (GPath_single_of_head hqshape hq) hl)
        | some dqpair =>
          obtain ⟨dq, pq⟩ := dqpair
          obtain ⟨-, -, -, -, hminq⟩ :=
            (dijkstra_correct sensors w rq t hw
              (rootsOf_mem_idSet sensors rq hrq)).2 dq pq hdq
          have hleq := hminq q (GPath_single_of_head hqshape hq) hqnd hql
          have hdqle : dq ≤ wPath w q := by
            rcases hleq with h | ⟨h, _⟩
            · exact le_of_lt h
            · exact le_of_eq h
          have hscan := hminF rq hrq dq pq hdq
          rcases hscan with hlt | ⟨heq, hle⟩
          · exact Or.inl (lt_of_lt_of_le hlt hdqle)
          · rcases lt_or_eq_of_le hle with hrlt | hreq
            · rcases lt_or_eq_of_le (le_trans (le_of_eq heq) hdqle)
                with h | h
              · exact Or.inl h
              · refine Or.inr ⟨h, Or.inl ?_⟩
                obtain ⟨r0x, t0x, hp0shape, hr0x⟩ := GPath_head_mem hgp0
                have hr0eq : r0x = r0 := by simpa using (hr0x : r0x ∈ [r0])
                rw [hp0shape, hqshape, hr0eq]
                exact lexLtB_head_lt (hrootdig r0 hr0) (hrootdig rq hrq)
                  hrlt _ _
            · subst hreq
              exact hmin0 q (GPath_single_of_head hqshape hq) hqnd hql
      have h1 := hminM p0 (GPath_seeds_of_single hr0 hgp0) hnd0 hlast0
      have h2 := hcompmin p hgpM hndM hlastM
      rw [hwp0] at h1
      rw [hwpM] at h2
      obtain ⟨hde, hpe⟩ := entryLe_antisymm h2 h1
      show some (d0, p0) = some (d, p)
      rw [hde, hpe]

theorem solveLoop_eq_engines (e1 e2 : RiskFun → Nat → Option (Rat × List Nat))
    (h : ∀ rm, (∀ a b, 0 ≤ rm a b) → ∀ t, e1 rm t = e2 rm t) :
    ∀ fuel (pending : List Nat) (rm : RiskFun), (∀ a b, 0 ≤ rm a b) →
      solveLoop e1 fuel pending rm = solveLoop e2 fuel pending rm
  | 0, pending, rm => fun _ => rfl
  | fuel+1, pending, rm => by
    intro hw
    rw [solveLoop, solveLoop]
    have he : e1 rm = e2 rm := funext (h rm hw)
    rw [he]
    by_cases hemp : pending.isEmpty = true
    · rw [if_pos hemp, if_pos hemp]
    · rw [if_neg hemp, if_neg hemp]
      cases hsel : selectBest (e2 rm) pending with
      | none => rfl
      | some tdp =>
        obtain ⟨t, d, p⟩ := tdp
        exact congrArg (List.cons (t, d, p))
          (solveLoop_eq_engines e1 e2 h fuel _ _ (zeroPath_nonneg rm p hw))

theorem dedupFirst_nodup : ∀ l : List Nat, (dedupFirst l).Nodup
  | [] => List.nodup_nil
  | a :: t => by
    rw [dedupFirst, List.nodup_cons]
    constructor
    · intro hmem
      rw [List.mem_filter] at hmem
      simp at hmem
    · exact (dedupFirst_nodup t).filter _

theorem selectBest_nil (g : Nat → Option (Rat × List Nat)) :
    selectBest g [] = none := rfl

theorem solveLoop_step (engine : RiskFun → Nat → Option (Rat × List Nat))
    (fuel : Nat) (pending : List Nat) (rm : RiskFun) (t : Nat) (d : Rat)
    (p : List Nat) (hsel : selectBest (engine rm) pending = some (t, d, p)) :
    solveLoop engine (fuel+1) pending rm =
      (t, d, p) :: solveLoop engine fuel (pending.filter (fun x => x ≠ t))
        (zeroPath rm p) := by
  have hne : pending ≠ [] := by
    intro h
    rw [h, selectBest_nil] at hsel
    exact absurd hsel (by simp)
  rw [solveLoop, if_neg (by simpa using hne)]
  rw [hsel]

/-! ### Final helpers for the claim theorems -/

theorem entryLe_risk_le {d : Rat} {p : List Nat} {d2 : Rat} {p2 : List Nat}
    (h : entryLe d p d2 p2) : d ≤ d2 := by
  rcases h with h | ⟨h, _⟩
  · exact le_of_lt h
  · exact le_of_eq h

theorem entryLe_key_not_rev {d : Rat} {p q : List Nat}
    (h : entryLe d p d q) : lexLtB (pathKey q) (pathKey p) = false := by
  rcases h with h | ⟨_, hk⟩
  · exact absurd h (lt_irrefl d)
  · rcases hk with hk | hk
    · exact lexLtB_asymm _ _ hk
    · rw [hk]
      exact lexLtB_irrefl _

theorem gpath_nodup_of_walk {adj : Nat → List Nat} {seeds : List Nat}
    (w : RiskFun) (hw : ∀ a b, 0 ≤ w a b) (q : List Nat)
    (hq : GPath adj seeds q) :
    ∃ q2, GPath adj seeds q2 ∧ q2.Nodup ∧ q2.getLast? = q.getLast? ∧
      wPath w q2 ≤ wPath w q := by
  obtain ⟨q2, hc2, hnd2, hh2, hl2, hw2⟩ := exists_nodup_path adj w hw q hq.1
  refine ⟨q2, ⟨hc2, ?_⟩, hnd2, hl2, hw2⟩
  rw [headIn_iff]
  obtain ⟨a, ha, has⟩ := (headIn_iff seeds q).mp hq.2
  exact ⟨a, hh2 ▸ ha, has⟩

theorem zeroFoldl_zero : ∀ (ps : List (List Nat)) (rm : RiskFun) (a b : Nat),
    rm a b = 0 → (ps.foldl zeroPath rm) a b = 0
  | [], rm, a, b => fun h => h
  | p :: ps, rm, a, b => fun h =>
    zeroFoldl_zero ps (zeroPath rm p) a b (zeroPath_preserves_zero rm p a b h)

theorem solveHeistTrace_eq (sensors : List Sensor) (risks : List RiskEntry)
    (targets : List Nat) (tr : List (Nat × Rat × List Nat))
    (h : solveHeistTrace sensors risks targets = some tr) :
    depsOk sensors = true ∧
    tr = solveLoop (heistEngine sensors) (dedupFirst targets).length
      (dedupFirst targets) (initialRisk risks) := by
  rw [solveHeistTrace] at h
  by_cases hd : depsOk sensors = true
  · rw [if_pos hd] at h
    exact ⟨hd, (Option.some.inj h).symm⟩
  · rw [if_neg hd] at h
    exact absurd h (by simp)

theorem heistEngine_last (sensors : List Sensor) :
    ∀ (rm : RiskFun) (t : Nat) (d : Rat) (p : List Nat),
      heistEngine sensors rm t = some (d, p) → p.getLast? = some t :=
  fun rm t d p h => multiRoot_last sensors rm t d p h

theorem chainB_iff (adj : Nat → List Nat) : ∀ p : List Nat,
    chainB adj p = true ↔ List.Chain' (IsEdge adj) p
  | [] => by simp [chainB]
  | [a] => by simp [chainB]
  | a :: b :: t => by
    rw [chainB, Bool.and_eq_true, decide_eq_true_eq, List.chain'_cons,
      chainB_iff adj (b :: t)]
    exact Iff.rfl

theorem GPath_iff_gpathB (adj : Nat → List Nat) (seeds : List Nat)
    (p : List Nat) : GPath adj seeds p ↔ gpathB adj seeds p = true := by
  rw [GPath, gpathB, Bool.and_eq_true, chainB_iff]
  refine and_congr Iff.rfl ?_
  cases p with
  | nil => simp [headInB]; exact fun h => h
  | cons a t => simp [headIn, headInB]

/-! ### The claims -/

attribute [local semireducible] Rat.add

/-- C1: for every graph, every non-negative risk assignment and every target
reachable from at least one root, both search variants — `multiRootDijkstra`
of `part_000` and `findBestPathToTarget` over the per-root `dijkstra` of
`Algorithm.ts` — return a valid path (it starts at a root, ends at the
target, and every consecutive pair is an edge of the adjacency structure)
whose accumulated risk equals the minimum, over all roots and all
root-to-target paths, of the sum of the current per-edge risks. -/
theorem search_returns_minimum_risk_path (sensors : List Sensor) (w : RiskFun)
    (target : Nat) (hw : ∀ a b, 0 ≤ w a b)
    (hreach : ∃ q, GPath (adjOf sensors) (rootsOf sensors) q ∧
      q.getLast? = some target) :
    (∃ d p, multiRootDijkstra sensors w target = some (d, p) ∧
      GPath (adjOf sensors) (rootsOf sensors) p ∧
      p.getLast? = some target ∧ wPath w p = d ∧
      ∀ q, GPath (adjOf sensors) (rootsOf sensors) q →
        q.getLast? = some target → d ≤ wPath w q) ∧
    (∃ r d p, findBestPathToTarget (fun r2 tg => dijkstra sensors w r2 tg)
        (rootsOf sensors) target = some (r, d, p) ∧
      GPath (adjOf sensors) (rootsOf sensors) p ∧
      p.getLast? = some target ∧ wPath w p = d ∧
      ∀ q, GPath (adjOf sensors) (rootsOf sensors) q →
        q.getLast? = some target → d ≤ wPath w q) := by
  obtain ⟨q0, hq0, hq0l⟩ := hreach
  obtain ⟨q1, hq1, hq1nd, hq1l, hq1w⟩ := gpath_nodup_of_walk w hw q0 hq0
  rw [hq0l] at hq1l
  constructor
  · cases hM : multiRootDijkstra sensors w target with
    | none =>
      exact absurd hq1l
        (fun hl => (multiRoot_correct sensors w target hw).1 hM q1 hq1 hl)
    | some dp =>
      obtain ⟨d, p⟩ := dp
      obtain ⟨hgp, hlast, hwp, hnd, hmin⟩ :=
        (multiRoot_correct sensors w target hw).2 d p hM
      refine ⟨d, p, rfl, hgp, hlast, hwp, ?_⟩
      intro q hq hql
      obtain ⟨q2, hq2, hq2nd, hq2l, hq2w⟩ := gpath_nodup_of_walk w hw q hq
      rw [hql] at hq2l
      exact le_trans (entryLe_risk_le (hmin q2 hq2 hq2nd hq2l)) hq2w
  · obtain ⟨rq, tq, hq1shape, hrq⟩ := GPath_head_mem hq1
    have hdq : dijkstra sensors w rq target ≠ none := by
      intro hnone
      exact (dijkstra_correct sensors w rq target hw
        (rootsOf_mem_idSet _ _ hrq)).1 hnone q1
        (GPath_single_of_head hq1shape hq1) hq1l
    cases hF : findBestPathToTarget (fun r2 tg => dijkstra sensors w r2 tg)
        (rootsOf sensors) target with
    | none =>
      rw [findBest_eq] at hF
      obtain ⟨-, hall⟩ := ((scanBest_spec _ _ none).1).mp hF
      exact absurd (hall rq hrq) hdq
    | some rdp =>
      obtain ⟨r0, d0, p0⟩ := rdp
      rw [findBest_eq] at hF
      obtain ⟨horig, hminF, -⟩ := (scanBest_spec _ _ none).2 r0 d0 p0 hF
      rcases horig with hbad | ⟨hr0, hdij0⟩
      · exact absurd hbad (by simp)
      obtain ⟨hgp0, hlast0, hwp0, hnd0, -⟩ :=
        (dijkstra_correct sensors w r0 target hw
          (rootsOf_mem_idSet _ _ hr0)).2 d0 p0 hdij0
      refine ⟨r0, d0, p0, rfl,
        GPath_seeds_of_single hr0 hgp0, hlast0, hwp0, ?_⟩
      intro q hq hql
      obtain ⟨q2, hq2, hq2nd, hq2l, hq2w⟩ := gpath_nodup_of_walk w hw q hq
      rw [hql] at hq2l
      obtain ⟨rq2, tq2, hq2shape, hrq2⟩ := GPath_head_mem hq2
      cases hdq2 : dijkstra sensors w rq2 target with
      | none =>
        exact absurd hq2l
          (fun hl => (dijkstra_correct sensors w rq2 target hw
            (rootsOf_mem_idSet _ _ hrq2)).1 hdq2 q2
            (GPath_single_of_head hq2shape hq2) hl)
      | some dqp =>
        obtain ⟨dq, pq⟩ := dqp
        obtain ⟨-, -, -, -, hminq⟩ :=
          (dijkstra_correct sensors w rq2 target hw
            (rootsOf_mem_idSet _ _ hrq2)).2 dq pq hdq2
        have h1 : dq ≤ wPath w q2 :=
          entryLe_risk_le (hminq q2 (GPath_single_of_head hq2shape hq2)
            hq2nd hq2l)
        have h2 : d0 ≤ dq := by
          rcases hminF rq2 hrq2 dq pq hdq2 with h | ⟨h, _⟩
          · exact le_of_lt h
          · exact le_of_eq h
        exact le_trans h2 (le_trans h1 hq2w)

/-- Witness for C1 on a concrete two-sensor graph with edge risk 3. -/
theorem search_returns_minimum_risk_path_witness :
    ∃ d p, multiRootDijkstra [⟨0, []⟩, ⟨1, [0]⟩]
        (initialRisk [⟨0, 1, 3⟩]) 1 = some (d, p) ∧
      wPath (initialRisk [⟨0, 1, 3⟩]) p = d ∧ p.getLast? = some 1 := by
  obtain ⟨⟨d, p, h1, _, h3, h4, _⟩, _⟩ :=
    search_returns_minimum_risk_path [⟨0, []⟩, ⟨1, [0]⟩]
      (initialRisk [⟨0, 1, 3⟩]) 1
      (initialRisk_nonneg _ (by decide))
      ⟨[0, 1], (GPath_iff_gpathB _ _ _).mpr (by decide), by decide⟩
  exact ⟨d, p, h1, h4, h3⟩

/-- C2: the claim asserts that risk ties are broken by position-by-position
numeric comparison of node identifiers.  The source instead compares the
comma-joined decimal strings of the paths (`path.join(',').localeCompare`),
which disagrees with numeric comparison once identifiers have more than one
digit.  Amended statement: among all duplicate-free valid paths to the
target that tie on the minimum risk, the returned path has the smallest
comma-joined decimal string in the code-point lexicographic order. -/
theorem tie_break_by_path_key (sensors : List Sensor) (w : RiskFun)
    (target : Nat) (d : Rat) (p : List Nat) (hw : ∀ a b, 0 ≤ w a b)
    (hM : multiRootDijkstra sensors w target = some (d, p)) :
    ∀ q, GPath (adjOf sensors) (rootsOf sensors) q → q.Nodup →
      q.getLast? = some target → wPath w q = d → q ≠ p →
      lexLtB (pathKey p) (pathKey q) = true := by
  intro q hq hnd hql hwq hne
  obtain ⟨-, -, -, -, hmin⟩ := (multiRoot_correct sensors w target hw).2 d p hM
  have hle := hmin q hq hnd hql
  rw [hwq] at hle
  rcases hle with h | ⟨-, h | h⟩
  · exact absurd h (lt_irrefl d)
  · exact h
  · exact absurd h.symm hne

/-- Witness for C2: on the spec's own example (roots 0 and 1, equal-risk
edges into 2) the engine returns `[0, 2]`, and its string key beats the
string key of the tied path `[1, 2]`. -/
theorem tie_break_by_path_key_witness :
    multiRootDijkstra [⟨0, []⟩, ⟨1, []⟩, ⟨2, [0, 1]⟩]
      (initialRisk [⟨0, 2, 5⟩, ⟨1, 2, 5⟩]) 2 = some (5, [0, 2]) ∧
    lexLtB (pathKey [0, 2]) (pathKey [1, 2]) = true := by
  refine ⟨by decide, ?_⟩
  exact tie_break_by_path_key [⟨0, []⟩, ⟨1, []⟩, ⟨2, [0, 1]⟩]
    (initialRisk [⟨0, 2, 5⟩, ⟨1, 2, 5⟩]) 2 5 [0, 2]
    (initialRisk_nonneg _ (by decide)) (by decide)
    [1, 2] ((GPath_iff_gpathB _ _ _).mpr (by decide)) (by decide)
    (by decide) (by decide) (by decide)

/-- Counterexample for C2: with multi-digit identifiers the string order
disagrees with the claimed numeric order.  Roots 0 with equal-risk routes
through 9 and through 10: the engine returns `[0, 10, 20]` although
`[0, 9, 20]` is a tied valid path that is numerically smaller. -/
theorem tie_break_by_path_key_cex :
    multiRootDijkstra [⟨0, []⟩, ⟨9, [0]⟩, ⟨10, [0]⟩, ⟨20, [9, 10]⟩]
      (initialRisk [⟨0, 9, 1⟩, ⟨0, 10, 1⟩, ⟨9, 20, 1⟩, ⟨10, 20, 1⟩]) 20
      = some (2, [0, 10, 20]) ∧
    gpathB (adjOf [⟨0, []⟩, ⟨9, [0]⟩, ⟨10, [0]⟩, ⟨20, [9, 10]⟩])
      (rootsOf [⟨0, []⟩, ⟨9, [0]⟩, ⟨10, [0]⟩, ⟨20, [9, 10]⟩])
      [0, 9, 20] = true ∧
    List.getLast? [0, 9, 20] = some 20 ∧
    wPath (initialRisk [⟨0, 9, 1⟩, ⟨0, 10, 1⟩, ⟨9, 20, 1⟩, ⟨10, 20, 1⟩])
      [0, 9, 20] = 2 ∧
    numLexLtB [0, 9, 20] [0, 10, 20] = true ∧
    [0, 9, 20] ≠ [0, 10, 20] := by decide

/-- C3: every outer-loop iteration of both gated variants removes a pending
target for which the engine returned a path, whose returned risk is minimal
among all pending targets that returned a path, ties broken by the smallest
target identifier (`traceMinB` states exactly this selection invariant for
every recorded iteration in sequence). -/
theorem selection_minimizes_risk_then_id (sensors : List Sensor)
    (risks : List RiskEntry) (targets : List Nat)
    (tr tr1 : List (Nat × Rat × List Nat))
    (h : solveHeistTrace sensors risks targets = some tr)
    (h1 : solveHeistTrace1 sensors risks targets = some tr1) :
    traceMinB (heistEngine sensors) tr (dedupFirst targets)
      (initialRisk risks) = true ∧
    traceMinB (heistEngine1 sensors) tr1 (dedupFirst targets)
      (initialRisk risks) = true := by
  constructor
  · obtain ⟨-, htr⟩ := solveHeistTrace_eq sensors risks targets tr h
    rw [htr]
    exact solveLoop_traceMin _ _ _ _
  · rw [solveHeistTrace1] at h1
    by_cases hd : depsOk sensors = true
    · rw [if_pos hd] at h1
      rw [← Option.some.inj h1]
      exact solveLoop_traceMin _ _ _ _
    · rw [if_neg hd] at h1
      exact absurd h1 (by simp)

/-- Witness for C3 on the tie-break example: target 2 is selected at risk 5
with path `[0, 2]` in both variants. -/
theorem selection_minimizes_risk_then_id_witness :
    traceMinB (heistEngine [⟨0, []⟩, ⟨1, []⟩, ⟨2, [0, 1]⟩])
      [(2, 5, [0, 2])] (dedupFirst [2])
      (initialRisk [⟨0, 2, 5⟩, ⟨1, 2, 5⟩]) = true ∧
    traceMinB (heistEngine1 [⟨0, []⟩, ⟨1, []⟩, ⟨2, [0, 1]⟩])
      [(2, 5, [0, 2])] (dedupFirst [2])
      (initialRisk [⟨0, 2, 5⟩, ⟨1, 2, 5⟩]) = true :=
  selection_minimizes_risk_then_id [⟨0, []⟩, ⟨1, []⟩, ⟨2, [0, 1]⟩]
    [⟨0, 2, 5⟩, ⟨1, 2, 5⟩] [2] [(2, 5, [0, 2])] [(2, 5, [0, 2])]
    (by decide) (by decide)

/-- C4: zeroing the winning path sets the stored risk of every consecutive
pair of that path to 0, leaves every directed edge not on the path
unchanged, and an edge once zeroed stays 0 under the zeroing performed by
any sequence of later iterations. -/
theorem path_zeroing_zeroes_and_frames (rm : RiskFun) (p : List Nat) :
    (∀ ab ∈ consecPairs p, zeroPath rm p ab.1 ab.2 = 0) ∧
    (∀ a b, (a, b) ∉ consecPairs p → zeroPath rm p a b = rm a b) ∧
    (∀ ps : List (List Nat), ∀ a b, zeroPath rm p a b = 0 →
      (ps.foldl zeroPath (zeroPath rm p)) a b = 0) := by
  refine ⟨?_, ?_, ?_⟩
  · intro ab hab
    rw [zeroPath_eq, if_pos (by simpa using hab)]
  · intro a b hab
    rw [zeroPath_eq, if_neg hab]
  · exact fun ps a b h => zeroFoldl_zero ps (zeroPath rm p) a b h

/-- Witness for C4 on the repo's path-zeroing example: after recording
`[0, 1, 2]`, edge (0,1) reads 0, the untouched edge (1,3) keeps its stored
risk, and (0,1) is still 0 after the later path `[0, 1, 3]` is zeroed. -/
theorem path_zeroing_zeroes_and_frames_witness :
    zeroPath (initialRisk [⟨0, 1, 10⟩, ⟨1, 2, 5⟩, ⟨1, 3, 5⟩])
      [0, 1, 2] 0 1 = 0 ∧
    zeroPath (initialRisk [⟨0, 1, 10⟩, ⟨1, 2, 5⟩, ⟨1, 3, 5⟩])
      [0, 1, 2] 1 3
      = initialRisk [⟨0, 1, 10⟩, ⟨1, 2, 5⟩, ⟨1, 3, 5⟩] 1 3 ∧
    ([[0, 1, 3]].foldl zeroPath
      (zeroPath (initialRisk [⟨0, 1, 10⟩, ⟨1, 2, 5⟩, ⟨1, 3, 5⟩])
        [0, 1, 2])) 0 1 = 0 := by
  refine ⟨(path_zeroing_zeroes_and_frames _ _).1 (0, 1) (by decide),
    (path_zeroing_zeroes_and_frames _ _).2.1 1 3 (by decide),
    (path_zeroing_zeroes_and_frames _ _).2.2 [[0, 1, 3]] 0 1
      ((path_zeroing_zeroes_and_frames _ _).1 (0, 1) (by decide))⟩

/-- C5: the claim asserts the recorded risks are nondecreasing along the
output, but zeroing the edges of an earlier path can make a later target
strictly cheaper, so the recorded sequence can decrease (see the
counterexample, where risks 15 then 5 are recorded).  Amended statement:
the greedy order is cheapest-first at selection time — the risk recorded at
an iteration is less than or equal to the risk the engine reports, at that
iteration's risk store, for every target resolved later. -/
theorem resolved_risks_cheapest_first (sensors : List Sensor) (fuel : Nat)
    (pending : List Nat) (rm : RiskFun) (t : Nat) (d : Rat) (p : List Nat)
    (rest : List (Nat × Rat × List Nat))
    (h : solveLoop (heistEngine sensors) fuel pending rm = (t, d, p) :: rest) :
    heistEngine sensors rm t = some (d, p) ∧
    ∀ x ∈ rest, ∀ d2 p2, heistEngine sensors rm x.1 = some (d2, p2) →
      d ≤ d2 := by
  cases fuel with
  | zero => exact absurd h (by simp [solveLoop])
  | succ fuel =>
    rw [solveLoop] at h
    by_cases hemp : pending.isEmpty = true
    · rw [if_pos hemp] at h
      exact absurd h (by simp)
    · rw [if_neg hemp] at h
      cases hsel : selectBest (heistEngine sensors rm) pending with
      | none =>
        rw [hsel] at h
        exact absurd h (by simp)
      | some tdp =>
        obtain ⟨t0, d0, p0⟩ := tdp
        rw [hsel] at h
        rw [List.cons.injEq] at h
        obtain ⟨heq, hrest⟩ := h
        simp only [Prod.mk.injEq] at heq
        obtain ⟨ht0, hd0, hp0⟩ := heq
        subst ht0
        subst hd0
        subst hp0
        obtain ⟨-, hengine, hmin⟩ :=
          selectBest_some_facts (heistEngine sensors rm) pending t0 d0 p0 hsel
        refine ⟨hengine, ?_⟩
        intro x hx d2 p2 hx2
        rw [← hrest] at hx
        have hxp := ((solveLoop_basic (heistEngine sensors)
          (heistEngine_last sensors) fuel
          (pending.filter (fun x => x ≠ t0)) (zeroPath rm p0)).2 x hx).1
        rw [List.mem_filter] at hxp
        rcases hmin x.1 hxp.1 d2 p2 hx2 with hlt | ⟨heq2, -⟩
        · exact le_of_lt hlt
        · exact le_of_eq heq2

/-- Witness for C5: in the path-zeroing example, target 2 is selected first
at risk 15, which is less than or equal to the risk 15 that the engine
reports for the later target 3 at the same (initial) store. -/
theorem resolved_risks_cheapest_first_witness :
    heistEngine [⟨0, []⟩, ⟨1, [0]⟩, ⟨2, [1]⟩, ⟨3, [1]⟩]
      (initialRisk [⟨0, 1, 10⟩, ⟨1, 2, 5⟩, ⟨1, 3, 5⟩]) 2
      = some (15, [0, 1, 2]) ∧
    (15 : Rat) ≤ 15 := by
  refine ⟨?_, ?_⟩
  · exact (resolved_risks_cheapest_first
      [⟨0, []⟩, ⟨1, [0]⟩, ⟨2, [1]⟩, ⟨3, [1]⟩] 2 [2, 3]
      (initialRisk [⟨0, 1, 10⟩, ⟨1, 2, 5⟩, ⟨1, 3, 5⟩]) 2 15 [0, 1, 2]
      [(3, 5, [0, 1, 3])] (by decide)).1
  · exact (resolved_risks_cheapest_first
      [⟨0, []⟩, ⟨1, [0]⟩, ⟨2, [1]⟩, ⟨3, [1]⟩] 2 [2, 3]
      (initialRisk [⟨0, 1, 10⟩, ⟨1, 2, 5⟩, ⟨1, 3, 5⟩]) 2 15 [0, 1, 2]
      [(3, 5, [0, 1, 3])] (by decide)).2
      (3, 5, [0, 1, 3]) (by decide) 15 [0, 1, 3] (by decide)

/-- Counterexample for C5: the run of the repo's path-zeroing test records
target 2 at risk 15 and then target 3 at risk 5 — the recorded risk
sequence strictly decreases, contradicting the claimed nondecreasing
order. -/
theorem resolved_risks_cheapest_first_cex :
    solveHeistTrace [⟨0, []⟩, ⟨1, [0]⟩, ⟨2, [1]⟩, ⟨3, [1]⟩]
      [⟨0, 1, 10⟩, ⟨1, 2, 5⟩, ⟨1, 3, 5⟩] [2, 3]
      = some [(2, 15, [0, 1, 2]), (3, 5, [0, 1, 3])] ∧
    ¬ ((15 : Rat) ≤ 5) := by decide

/-- C6: in the run of `part_000`, with non-negative risk entries, the output
lists one entry per distinct pending target that is reachable from some
root (and no entry for an unreachable one), each recorded path ends at its
target, and recorded targets are pairwise distinct — a shorter-than-requested
output is the only effect of unreachable targets, not a failure. -/
theorem unreachable_targets_skipped (sensors : List Sensor)
    (risks : List RiskEntry) (targets : List Nat)
    (tr : List (Nat × Rat × List Nat))
    (hrisk : ∀ e ∈ risks, 0 ≤ e.risk)
    (h : solveHeistTrace sensors risks targets = some tr) :
    ((tr.map (fun x => x.1)).Nodup ∧
      ∀ x ∈ tr, x.2.2.getLast? = some x.1) ∧
    ∀ t, t ∈ tr.map (fun x => x.1) ↔
      (t ∈ dedupFirst targets ∧
        CanReach (adjOf sensors) (rootsOf sensors) t) := by
  obtain ⟨-, htr⟩ := solveHeistTrace_eq sensors risks targets tr h
  subst htr
  constructor
  · obtain ⟨hnd, hmem⟩ := solveLoop_basic (heistEngine sensors)
      (heistEngine_last sensors) (dedupFirst targets).length
      (dedupFirst targets) (initialRisk risks)
    exact ⟨hnd, fun x hx => (hmem x hx).2⟩
  · exact solveLoop_reach sensors (dedupFirst targets).length
      (dedupFirst targets) (initialRisk risks)
      (initialRisk_nonneg risks hrisk) (le_refl _)

/-- Witness for C6: targets 1 (reachable) and 2 (on a dependency cycle,
unreachable from the sole root 0): the run succeeds, 1 is in the output and
2 is (provably, via the iff) not. -/
theorem unreachable_targets_skipped_witness :
    1 ∈ [((1 : Nat), (7 : Rat), [0, 1])].map (fun x => x.1) ∧
    (2 ∈ [((1 : Nat), (7 : Rat), [0, 1])].map (fun x => x.1) ↔
      (2 ∈ dedupFirst [1, 2] ∧
        CanReach (adjOf [⟨0, []⟩, ⟨1, [0]⟩, ⟨2, [3]⟩, ⟨3, [2]⟩])
          (rootsOf [⟨0, []⟩, ⟨1, [0]⟩, ⟨2, [3]⟩, ⟨3, [2]⟩]) 2)) := by
  refine ⟨?_, (unreachable_targets_skipped
    [⟨0, []⟩, ⟨1, [0]⟩, ⟨2, [3]⟩, ⟨3, [2]⟩] [⟨0, 1, 7⟩] [1, 2]
    [((1 : Nat), (7 : Rat), [0, 1])] (by decide) (by decide)).2 2⟩
  exact ((unreachable_targets_skipped
    [⟨0, []⟩, ⟨1, [0]⟩, ⟨2, [3]⟩, ⟨3, [2]⟩] [⟨0, 1, 7⟩] [1, 2]
    [((1 : Nat), (7 : Rat), [0, 1])] (by decide) (by decide)).2 1).mpr
    ⟨by decide, [0, 1], (GPath_iff_gpathB _ _ _).mpr (by decide), by decide⟩

/-- C7: the claim says an unknown dependency identifier is a fatal
configuration error in every variant.  That holds for `part_000` and the
first `Algorithm.ts` copy, whose `graph.get(dep).push(...)` throws before
any search (modelled as `none`), but the second `Algorithm.ts` copy uses
`graph.get(dep)?.push(...)`, silently skips the unknown dependency and
produces full output (see the counterexample).  Amended statement: in the
two gated variants an unknown dependency yields `none` — no partial
output. -/
theorem unknown_dependency_fatal (sensors : List Sensor)
    (risks : List RiskEntry) (targets : List Nat)
    (h : depsOk sensors = false) :
    solveHeistTrace sensors risks targets = none ∧
    solveHeist sensors risks targets = none ∧
    solveHeistTrace1 sensors risks targets = none ∧
    solveHeist1 sensors risks targets = none := by
  have h2 : ¬ depsOk sensors = true := by rw [h]; simp
  refine ⟨?_, ?_, ?_, ?_⟩
  · rw [solveHeistTrace, if_neg h2]
  · rw [solveHeist, solveHeistTrace, if_neg h2]
    rfl
  · rw [solveHeistTrace1, if_neg h2]
  · rw [solveHeist1, solveHeistTrace1, if_neg h2]
    rfl

/-- Witness for C7: sensor 1 depends on the unknown id 99, so the gated
variants return `none`. -/
theorem unknown_dependency_fatal_witness :
    solveHeistTrace [⟨0, []⟩, ⟨1, [0, 99]⟩] [⟨0, 1, 3⟩] [1] = none ∧
    solveHeist1 [⟨0, []⟩, ⟨1, [0, 99]⟩] [⟨0, 1, 3⟩] [1] = none :=
  ⟨(unknown_dependency_fatal [⟨0, []⟩, ⟨1, [0, 99]⟩] [⟨0, 1, 3⟩] [1]
      (by decide)).1,
   (unknown_dependency_fatal [⟨0, []⟩, ⟨1, [0, 99]⟩] [⟨0, 1, 3⟩] [1]
      (by decide)).2.2.2⟩

/-- Counterexample for C7: the same malformed input is not fatal to the
second `Algorithm.ts` copy — `depsOk` is false, yet `solveHeist2` runs to
completion and returns the path `[0, 1]`. -/
theorem unknown_dependency_fatal_cex :
    depsOk [⟨0, []⟩, ⟨1, [0, 99]⟩] = false ∧
    solveHeist2 [⟨0, []⟩, ⟨1, [0, 99]⟩] [⟨0, 1, 3⟩] [1] = [[0, 1]] := by
  decide

/-- C8: the claim asserts the per-root variant and the multi-source variant
always return the same list of paths.  They differ once identifiers have
more than one digit, because the per-root variant breaks root-level risk
ties by the numerically smaller root while the multi-source variant
compares full comma-joined path strings (see the counterexample with roots
2 and 10).  Amended statement: when every sensor identifier is a single
decimal digit and the risk entries are non-negative, the two variants
agree on every input. -/
theorem variants_agree_single_digit (sensors : List Sensor)
    (risks : List RiskEntry) (targets : List Nat)
    (hdig : ∀ s ∈ sensors, s.id ≤ 9)
    (hrisk : ∀ e ∈ risks, 0 ≤ e.risk) :
    solveHeist1 sensors risks targets = solveHeist sensors risks targets := by
  rw [solveHeist1, solveHeist, solveHeistTrace1, solveHeistTrace]
  by_cases hd : depsOk sensors = true
  · rw [if_pos hd, if_pos hd]
    rw [solveLoop_eq_engines (heistEngine1 sensors) (heistEngine sensors)
      (fun rm hrm t => heistEngine1_eq_digit sensors rm t hrm hdig)
      (dedupFirst targets).length (dedupFirst targets) (initialRisk risks)
      (initialRisk_nonneg risks hrisk)]
  · rw [if_neg hd, if_neg hd]

/-- Witness for C8 on the repo's small test case (all ids single-digit):
both variants return the same output. -/
theorem variants_agree_single_digit_witness :
    solveHeist1 [⟨0, []⟩, ⟨1, [0]⟩, ⟨2, [1]⟩, ⟨3, [1]⟩]
      [⟨0, 1, 10⟩, ⟨1, 2, 5⟩, ⟨1, 3, 5⟩] [2, 3]
      = solveHeist [⟨0, []⟩, ⟨1, [0]⟩, ⟨2, [1]⟩, ⟨3, [1]⟩]
      [⟨0, 1, 10⟩, ⟨1, 2, 5⟩, ⟨1, 3, 5⟩] [2, 3] :=
  variants_agree_single_digit [⟨0, []⟩, ⟨1, [0]⟩, ⟨2, [1]⟩, ⟨3, [1]⟩]
    [⟨0, 1, 10⟩, ⟨1, 2, 5⟩, ⟨1, 3, 5⟩] [2, 3] (by decide) (by decide)

/-- Counterexample for C8: roots 2 and 10 with equal-risk edges into 11.
The per-root variant picks the smaller root 2 and returns `[[2, 11]]`; the
multi-source variant compares the strings "2,11" and "10,11", where
"10,11" is smaller, and returns `[[10, 11]]`. -/
theorem variants_agree_single_digit_cex :
    solveHeist1 [⟨2, []⟩, ⟨10, []⟩, ⟨11, [2, 10]⟩]
      [⟨2, 11, 5⟩, ⟨10, 11, 5⟩] [11] = some [[2, 11]] ∧
    solveHeist [⟨2, []⟩, ⟨10, []⟩, ⟨11, [2, 10]⟩]
      [⟨2, 11, 5⟩, ⟨10, 11, 5⟩] [11] = some [[10, 11]] ∧
    (some [[2, 11]] : Option (List (List Nat))) ≠ some [[10, 11]] := by
  decide

/-- C9: the embedded `solveHeist` of each variant is a pure function of its
three inputs, so two runs on the same input are equal — the source has no
randomness, and its only iteration orders (insertion order of `Map`/`Set`,
the sorted root list, the priority-queue comparator) are fixed by the
input. -/
theorem solveHeist_deterministic (sensors : List Sensor)
    (risks : List RiskEntry) (targets : List Nat) :
    solveHeist sensors risks targets = solveHeist sensors risks targets ∧
    solveHeist1 sensors risks targets = solveHeist1 sensors risks targets ∧
    solveHeist2 sensors risks targets = solveHeist2 sensors risks targets :=
  ⟨rfl, rfl, rfl⟩

/-- C10: duplicate entries of the target list are collapsed by the
`new Set(targetSensors)` pending set (modelled by `dedupFirst`): the output
has at most one entry per distinct target, recorded targets are pairwise
distinct, every recorded path ends at its own target (so the final nodes
are pairwise distinct), and the deduplicated pending list itself has no
duplicates. -/
theorem duplicate_targets_collapsed (sensors : List Sensor)
    (risks : List RiskEntry) (targets : List Nat)
    (tr : List (Nat × Rat × List Nat))
    (h : solveHeistTrace sensors risks targets = some tr) :
    (tr.map (fun x => x.1)).Nodup ∧
    (∀ x ∈ tr, x.1 ∈ dedupFirst targets ∧ x.2.2.getLast? = some x.1) ∧
    tr.map (fun x => x.2.2.getLast?) = tr.map (fun x => some x.1) ∧
    (dedupFirst targets).Nodup := by
  obtain ⟨-, htr⟩ := solveHeistTrace_eq sensors risks targets tr h
  subst htr
  obtain ⟨hnd, hmem⟩ := solveLoop_basic (heistEngine sensors)
    (heistEngine_last sensors) (dedupFirst targets).length
    (dedupFirst targets) (initialRisk risks)
  refine ⟨hnd, hmem, ?_, dedupFirst_nodup targets⟩
  exact List.map_congr_left (fun x hx => (hmem x hx).2)

/-- Witness for C10: the duplicated target list `[1, 1]` yields a single
output entry whose path ends at 1. -/
theorem duplicate_targets_collapsed_witness :
    ([((1 : Nat), (3 : Rat), [0, 1])].map (fun x => x.1)).Nodup ∧
    [((1 : Nat), (3 : Rat), [0, 1])].map (fun x => x.2.2.getLast?)
      = [((1 : Nat), (3 : Rat), [0, 1])].map (fun x => some x.1) :=
  ⟨(duplicate_targets_collapsed [⟨0, []⟩, ⟨1, [0]⟩] [⟨0, 1, 3⟩] [1, 1]
      [((1 : Nat), (3 : Rat), [0, 1])] (by decide)).1,
   (duplicate_targets_collapsed [⟨0, []⟩, ⟨1, [0]⟩] [⟨0, 1, 3⟩] [1, 1]
      [((1 : Nat), (3 : Rat), [0, 1])] (by decide)).2.2.1⟩
